import Mathlib

/-!
# Fixed-point numeric text codec (`frac.go`)

A shallow embedding of `Parse`, `Format` and `Append` of `frac.go`, with their
helpers `inc`, `toDigit`, `lower` and `pop`.

Modelling conventions:

* a Go `string` / `[]byte` is a `List Nat` of byte values;
* `int64` is `Int`, every arithmetic result passing through `wrap64`
  (two's-complement wrap-around); `uint64` is `Nat` modulo `2^64`;
* a Go result pair `(value, err)` is a Lean pair whose second component is
  `none` for a `nil` error; error messages are abstracted to their kind;
* a run-time panic (index out of range) is the outcome `none` of an `Option`.
-/

namespace Frac

/-! ## Machine integers -/

/-- Two's-complement reduction of a mathematical integer to `int64`. -/
def wrap64 (x : Int) : Int := (x + 2 ^ 63) % 2 ^ 64 - 2 ^ 63

/-- Conversion `uint64(x)` of an `int64` value. -/
def toUint64 (x : Int) : Nat := (x % 2 ^ 64).toNat

/-- Smallest `int64`. -/
def minInt64 : Int := -(2 ^ 63)

/-- Largest `int64`. -/
def maxInt64 : Int := 2 ^ 63 - 1

/-- The value is representable as an `int64`. -/
def IsInt64 (x : Int) : Prop := minInt64 ≤ x ∧ x ≤ maxInt64

instance (x : Int) : Decidable (IsInt64 x) := by unfold IsInt64; infer_instance

/-! ## Digit table and radix bounds -/

/-- The constant `digits`: the bytes of "0123456789abcdefghijklmnopqrstuvwxyz". -/
def digits : List Nat :=
  [48, 49, 50, 51, 52, 53, 54, 55, 56, 57,
   97, 98, 99, 100, 101, 102, 103, 104, 105, 106, 107, 108, 109,
   110, 111, 112, 113, 114, 115, 116, 117, 118, 119, 120, 121, 122]

/-- The constant `radixMin`. -/
def radixMin : Nat := 2

/-- The constant `radixMax = uint(len(digits))`. -/
def radixMax : Nat := digits.length

/-- The constant `unDigit`. -/
def unDigit : Nat := 255

/-- The function `lower`: `char | ('a' - 'A')`. -/
def lower (char : Nat) : Nat := char ||| (97 - 65)

/-- The function `toDigit`. -/
def toDigit (char : Nat) : Nat :=
  if char ≥ 48 ∧ char ≤ 57 then char - 48
  else
    let char := lower char
    if char ≥ 97 ∧ char ≤ 122 then char - 97 + 10
    else unDigit

/-! ## Parser -/

/-- Error kinds of `Parse` (one per `fmt.Errorf` call site). `invalidCharacter`
carries the byte index handed to `runeAt`. -/
inductive ParseError where
  | emptyInput
  | unsupportedRadix
  | invalidCharacter (ind : Nat)
  | precisionExceeded
  | overflow
  | underflow
  | unexpectedEnd
  deriving DecidableEq

/-- The constants `stepSign .. stepExp` of `Parse`. -/
inductive Step where
  | stepSign
  | stepMantStart
  | stepMant
  | stepExpStart
  | stepExp
  deriving DecidableEq

/-- The local variables of `Parse` that live across loop iterations. The counter
`expDigs` grows by at most one per input byte, so it cannot wrap around. -/
structure ParseState where
  step : Step
  sign : Int
  expDigs : Nat
  num : Int
  deriving DecidableEq

/-- The function `inc` (the `src` argument only feeds the error message). -/
def inc (prev : Int) (radix : Nat) (sign : Int) (digit : Nat) : Int × Option ParseError :=
  let next := wrap64 (wrap64 (prev * wrap64 (radix : Int)) + wrap64 (sign * wrap64 (digit : Int)))
  if prev > 0 ∧ next < prev then (0, some ParseError.overflow)
  else if prev < 0 ∧ next > prev then (0, some ParseError.underflow)
  else (next, none)

/-- One iteration of the `for ind, char := range []byte(src)` loop of `Parse`:
`Except.ok` is falling through or `continue`, `Except.error (n, e)` is
`return n, e`. -/
def parseChar (frac radix ind char : Nat) (st : ParseState) :
    Except (Int × ParseError) ParseState :=
  if st.step = Step.stepSign ∧ char = 43 then
    .ok { st with step := Step.stepMantStart }
  else if st.step = Step.stepSign ∧ char = 45 then
    .ok { st with sign := -1, step := Step.stepMantStart }
  else
    let step := if st.step = Step.stepSign then Step.stepMantStart else st.step
    if step = Step.stepMant ∧ char = 46 then
      .ok { st with step := Step.stepExpStart }
    else
      let step :=
        if step = Step.stepMantStart then Step.stepMant
        else if step = Step.stepExpStart then Step.stepExp
        else step
      let digit := toDigit char
      if digit = unDigit ∨ digit ≥ radix then
        .error (0, ParseError.invalidCharacter ind)
      else if step = Step.stepExp ∧ st.expDigs + 1 > frac then
        if digit = 0 then
          .ok { st with step := step, expDigs := st.expDigs + 1 }
        else
          .error (0, ParseError.precisionExceeded)
      else
        let expDigs := if step = Step.stepExp then st.expDigs + 1 else st.expDigs
        if st.num = 0 then
          .ok { st with step := step, expDigs := expDigs,
                        num := wrap64 (st.sign * wrap64 (digit : Int)) }
        else
          match inc st.num radix st.sign digit with
          | (_, some err) => .error (0, err)
          | (num, none) => .ok { st with step := step, expDigs := expDigs, num := num }

/-- The `for ind, char := range []byte(src)` loop of `Parse`, from index `ind`. -/
def parseLoop (frac radix : Nat) : List Nat → Nat → ParseState →
    Except (Int × ParseError) ParseState
  | [], _, st => .ok st
  | char :: rest, ind, st =>
    match parseChar frac radix ind char st with
    | .error e => .error e
    | .ok st1 => parseLoop frac radix rest (ind + 1) st1

/-- The loop `for expDigs < frac { num, err = inc(src, num, radix, sign, 0); ...; expDigs++ }`
of `Parse`; the first argument is the number `frac - expDigs` of iterations left. -/
def padLoop (radix : Nat) (sign : Int) : Nat → Int → Except (Int × ParseError) Int
  | 0, num => .ok num
  | n + 1, num =>
    match inc num radix sign 0 with
    | (_, some err) => .error (0, err)
    | (num1, none) => padLoop radix sign n num1

/-- The function `Parse`. -/
def Parse (src : List Nat) (frac radix : Nat) : Int × Option ParseError :=
  if src.length = 0 then (0, some ParseError.emptyInput)
  else if ¬ (radix ≥ radixMin ∧ radix ≤ radixMax) then (0, some ParseError.unsupportedRadix)
  else
    match parseLoop frac radix src 0 ⟨Step.stepSign, 1, 0, 0⟩ with
    | .error (n, e) => (n, some e)
    | .ok st =>
      match padLoop radix st.sign (frac - st.expDigs) st.num with
      | .error (n, e) => (n, some e)
      | .ok num =>
        if st.step ≠ Step.stepMant ∧ st.step ≠ Step.stepExp then
          (0, some ParseError.unexpectedEnd)
        else (num, none)

/-! ## Formatter -/

/-- Error kinds of `Append` and `Format`. -/
inductive FormatError where
  | unsupportedRadix
  | precisionLimitExceeded
  deriving DecidableEq

/-- The constant `bits = unsafe.Sizeof(num) * 8` of `Append`. -/
def bits : Nat := 64

/-- Length of the scratch array `local`: `int(bits) + len("-0.")`. -/
def localSize : Nat := bits + 3

/-- The function `pop`, in `uint64` arithmetic. -/
def pop (num radix : Nat) : Nat × Nat :=
  let quot := num / radix
  let digit := (num + 2 ^ 64 - (quot * radix) % 2 ^ 64) % 2 ^ 64
  (quot, digit)

/-- The two statements `ind--; local[ind] = c`. The scratch array and its index
are represented by the written part `local[ind:]`, so `ind = localSize - length`;
the store panics when `ind` would drop below zero. -/
def put (loc : List Nat) (c : Nat) : Option (List Nat) :=
  if loc.length < localSize then some (c :: loc) else none

/-- The loop `for frac > 0 { ... }` of `Append`, on the state
`(unum, trailing, local[ind:])`; returns the final `unum` and `local[ind:]`. -/
def fracLoop (rad : Nat) : Nat → Nat → Bool → List Nat → Option (Nat × List Nat)
  | 0, unum, _, loc => some (unum, loc)
  | frac + 1, unum, trailing, loc =>
    let (unum1, digit) := pop unum rad
    if digit = 0 ∧ trailing = true then fracLoop rad frac unum1 trailing loc
    else
      match digits[digit]? with
      | none => none
      | some c =>
        match put loc c with
        | none => none
        | some loc1 =>
          if frac = 0 then
            match put loc1 46 with
            | none => none
            | some loc2 => fracLoop rad frac unum1 false loc2
          else fracLoop rad frac unum1 false loc1

/-- The loop `for unum >= rad { ... }` of `Append`. The first argument bounds the
number of iterations; running out of it is reported as `none`. -/
def intLoop (rad : Nat) : Nat → Nat → List Nat → Option (Nat × List Nat)
  | fuel, unum, loc =>
    if unum ≥ rad then
      match fuel with
      | 0 => none
      | fuel1 + 1 =>
        let (unum1, digit) := pop unum rad
        match digits[digit]? with
        | none => none
        | some c =>
          match put loc c with
          | none => none
          | some loc1 => intLoop rad fuel1 unum1 loc1
    else some (unum, loc)

/-- The function `Append`. The outcome `none` stands for a run-time panic. -/
def Append (buf : List Nat) (num : Int) (frac radix : Nat) :
    Option (List Nat × Option FormatError) :=
  if ¬ (radix ≥ radixMin ∧ radix ≤ radixMax) then some (buf, some FormatError.unsupportedRadix)
  else if frac > bits then some (buf, some FormatError.precisionLimitExceeded)
  else
    let neg : Bool := decide (num < 0)
    let unum : Nat := if num < 0 then toUint64 (wrap64 (-num)) else toUint64 num
    let rad : Nat := radix % 2 ^ 64
    match fracLoop rad frac unum true [] with
    | none => none
    | some (unum1, loc1) =>
      match intLoop rad bits unum1 loc1 with
      | none => none
      | some (unum2, loc2) =>
        match digits[unum2]? with
        | none => none
        | some c =>
          match put loc2 c with
          | none => none
          | some loc3 =>
            if neg then
              match put loc3 45 with
              | none => none
              | some loc4 => some (buf ++ loc4, none)
            else some (buf ++ loc3, none)

/-- The function `Format`. -/
def Format (num : Int) (frac radix : Nat) : Option (List Nat × Option FormatError) :=
  match Append [] num frac radix with
  | none => none
  | some (buf, err) => some (buf, err)

/-! ## Rune lookup

`Parse` calls `runeAt(src, ind)` to quote the offending character in its
non-digit error; `runeAt` iterates over the runes of the string and panics when
the index is not the start of a rune. -/

/-- The Unicode replacement character `utf8.RuneError`. -/
def runeError : Nat := 0xFFFD

/-- A continuation byte of UTF-8 within the given bounds. -/
def inRange (lo hi b : Nat) : Bool := decide (lo ≤ b ∧ b ≤ hi)

/-- Decoding of the first rune of a non-empty byte string by Go's
range-over-string iteration (language semantics, not code of the package):
the code point and its width in bytes; an invalid or truncated UTF-8 sequence
gives the replacement character and the width 1. -/
def decodeRune : List Nat → Nat × Nat
  | [] => (runeError, 1)
  | b0 :: rest =>
    if b0 < 0x80 then (b0, 1)
    else if 0xC2 ≤ b0 ∧ b0 ≤ 0xDF then
      match rest with
      | b1 :: _ =>
        if inRange 0x80 0xBF b1 then ((b0 - 0xC0) * 64 + (b1 - 0x80), 2)
        else (runeError, 1)
      | _ => (runeError, 1)
    else if 0xE0 ≤ b0 ∧ b0 ≤ 0xEF then
      match rest with
      | b1 :: b2 :: _ =>
        let lo := if b0 = 0xE0 then 0xA0 else 0x80
        let hi := if b0 = 0xED then 0x9F else 0xBF
        if inRange lo hi b1 ∧ inRange 0x80 0xBF b2 then
          ((b0 - 0xE0) * 4096 + (b1 - 0x80) * 64 + (b2 - 0x80), 3)
        else (runeError, 1)
      | _ => (runeError, 1)
    else if 0xF0 ≤ b0 ∧ b0 ≤ 0xF4 then
      match rest with
      | b1 :: b2 :: b3 :: _ =>
        let lo := if b0 = 0xF0 then 0x90 else 0x80
        let hi := if b0 = 0xF4 then 0x8F else 0xBF
        if inRange lo hi b1 ∧ inRange 0x80 0xBF b2 ∧ inRange 0x80 0xBF b3 then
          ((b0 - 0xF0) * 262144 + (b1 - 0x80) * 4096 + (b2 - 0x80) * 64 + (b3 - 0x80), 4)
        else (runeError, 1)
      | _ => (runeError, 1)
    else (runeError, 1)

/-- The loop `for ind, char := range str` of `runeAt`, on the bytes that remain
from the offset `ind`. The first argument bounds the number of iterations (each
consumes at least one byte); `none` is the `panic` that follows the loop. -/
def runeAtLoop (index : Nat) : Nat → List Nat → Nat → Option Nat
  | 0, _, _ => none
  | fuel + 1, rest, ind =>
    match rest with
    | [] => none
    | _ :: _ =>
      let (char, width) := decodeRune rest
      if ind = index then some char
      else runeAtLoop index fuel (rest.drop width) (ind + width)

/-- The function `runeAt`; `none` is its `panic`. -/
def runeAt (str : List Nat) (index : Nat) : Option Nat :=
  runeAtLoop index str.length str 0

/-! ## Reference definitions

Definitions that follow the wording of the specification; the code is compared
with them. -/

/-- Bytes of an ASCII string literal, used to write test vectors. -/
def bytes (s : String) : List Nat := s.data.map Char.toNat

/-- Character of a digit value, as looked up in `digits`. -/
def digitChar (d : Nat) : Nat := digits.getD d 0

/-- Reference: the radix representation of a natural number, most significant
digit first, without leading zeros; the single digit 0 for zero. -/
def natRepr (radix n : Nat) : List Nat :=
  if n = 0 then [0] else (Nat.digits radix n).reverse

/-- Reference: `F` written with exactly `frac` digits, most significant first,
zero-padded on the left. -/
def padLeft (radix frac F : Nat) : List Nat :=
  List.replicate (frac - (Nat.digits radix F).length) 0 ++ (Nat.digits radix F).reverse

/-- Reference: a digit string with all its trailing zeros removed. -/
def stripTrailingZeros (ds : List Nat) : List Nat :=
  (ds.reverse.dropWhile (· = 0)).reverse

/-- Reference definition of the text of `Format`, following the specification:
a minus sign for negative numbers, the integer part `I`, and, when the
fractional part `F` is not zero, a point and `F` on `frac` digits without its
trailing zeros. -/
def FormatSpec (num : Int) (frac radix : Nat) : List Nat :=
  let M := num.natAbs
  let I := M / radix ^ frac
  let F := M % radix ^ frac
  (if num < 0 then [45] else []) ++ (natRepr radix I).map digitChar ++
    (if F ≠ 0 then 46 :: (stripTrailingZeros (padLeft radix frac F)).map digitChar else [])

/-- Reference: the natural number whose digit string in the given radix, most
significant digit first, is `ds`. -/
def digitsValue (radix : Nat) (ds : List Nat) : Nat := Nat.ofDigits radix ds.reverse

/-- Sign denoted by an optional sign prefix. -/
def signValue (sg : List Nat) : Int := if sg = [45] then -1 else 1

/-- Input text `[+|-] m1..mk [. f1..fj]`: the point is present exactly when there
are fractional digits. -/
def fracInput (sg m f : List Nat) : List Nat :=
  sg ++ m ++ (if f = [] then [] else 46 :: f)

/-- Exact scaled value of `fracInput sg m f`: the sign times the number whose digit
string is the mantissa, the first `min j frac` fractional digits and
`frac - j` zeros. -/
def scaledValue (radix frac : Nat) (sg m f : List Nat) : Int :=
  signValue sg *
    (digitsValue radix
      (m.map toDigit ++ (f.take frac).map toDigit ++ List.replicate (frac - f.length) 0) : Int)

/-- Reference: the character is a digit of the radix, that is one of 0-9, a-z,
A-Z whose digit value (0..9 for 0-9, 10..35 for the letters of either case) is
below the radix. -/
def IsDigitOf (radix c : Nat) : Prop :=
  (48 ≤ c ∧ c ≤ 57 ∧ c - 48 < radix) ∨
    (97 ≤ c ∧ c ≤ 122 ∧ c - 97 + 10 < radix) ∨
    (65 ≤ c ∧ c ≤ 90 ∧ c - 65 + 10 < radix)

/-- Reference: an optional sign prefix, empty or one of "+" and "-". -/
def IsSignPrefix (sg : List Nat) : Prop := sg = [] ∨ sg = [43] ∨ sg = [45]

/-- Reference: the other-case form of an ASCII letter; other bytes are unchanged. -/
def swapCase (c : Nat) : Nat :=
  if 65 ≤ c ∧ c ≤ 90 then c + 32
  else if 97 ≤ c ∧ c ≤ 122 then c - 32
  else c

/-- Reference: `b` is `a`, or `a` is an ASCII letter and `b` its other-case form. -/
def CaseVariant (a b : Nat) : Prop := b = a ∨ b = swapCase a

/-! ## Proof vocabulary

Closed forms and invariants used by the lemmas below. -/

/-- Little-endian digits of `n`, exactly `k` of them. -/
def lePad (rad : Nat) : Nat → Nat → List Nat
  | 0, _ => []
  | k + 1, n => n % rad :: lePad rad k (n / rad)

/-- Text written by the fractional loop of `Append` when it starts with
`trailing = true`. -/
def fracOut (rad k n : Nat) : List Nat :=
  let rest := (lePad rad k n).dropWhile (· = 0)
  if rest = [] then [] else 46 :: rest.reverse.map digitChar

/-- Text produced by `Append` for valid parameters, in closed form. -/
def formatText (num : Int) (frac radix : Nat) : List Nat :=
  (if num < 0 then [45] else []) ++
    ((natRepr radix (num.natAbs / radix ^ frac)).map digitChar ++ fracOut radix frac num.natAbs)

/-- Sign prefix written by `Append`. -/
def signText (num : Int) : List Nat := if num < 0 then [45] else []

/-- Integer digits written by `Append`. -/
def intText (num : Int) (frac radix : Nat) : List Nat :=
  (natRepr radix (num.natAbs / radix ^ frac)).map digitChar

/-- Fractional digits written by `Append` (without the point). -/
def fracDigitsText (num : Int) (frac radix : Nat) : List Nat :=
  (((lePad radix frac num.natAbs).dropWhile (· = 0)).reverse).map digitChar

/-- Horner accumulation of a digit string, most significant digit first,
starting from `a`. -/
def accum (radix : Nat) (a : Nat) (ds : List Nat) : Nat :=
  ds.foldl (fun acc d => acc * radix + d) a

/-- A sign of `Parse`: `1` or `-1`. -/
def IsSign (s : Int) : Prop := s = 1 ∨ s = -1

/-- Step reached after a digit has been read in a given step. -/
def advance : Step → Step
  | Step.stepSign => Step.stepMant
  | Step.stepMantStart => Step.stepMant
  | Step.stepMant => Step.stepMant
  | Step.stepExpStart => Step.stepExp
  | Step.stepExp => Step.stepExp

/-- The steps of `Parse` that follow the point. -/
def PostPoint (s : Step) : Prop := s = Step.stepExpStart ∨ s = Step.stepExp

/-- Normal form of the part of the loop body of `Parse` that follows the step
updates (digit validation, precision check, accumulation), with the updated
step given; `parseChar_eq` relates it to `parseChar`. -/
def digitStep (frac radix ind digit : Nat) (step : Step) (st : ParseState) :
    Except (Int × ParseError) ParseState :=
  if digit = unDigit ∨ digit ≥ radix then .error (0, ParseError.invalidCharacter ind)
  else if step = Step.stepExp ∧ st.expDigs + 1 > frac then
    if digit = 0 then .ok ⟨step, st.sign, st.expDigs + 1, st.num⟩
    else .error (0, ParseError.precisionExceeded)
  else if st.num = 0 then
    .ok ⟨step, st.sign, if step = Step.stepExp then st.expDigs + 1 else st.expDigs,
      wrap64 (st.sign * wrap64 (digit : Int))⟩
  else
    match inc st.num radix st.sign digit with
    | (_, some err) => .error (0, err)
    | (num, none) =>
      .ok ⟨step, st.sign, if step = Step.stepExp then st.expDigs + 1 else st.expDigs, num⟩

/-- The part of `Parse` that follows the two parameter checks; `Parse_valid`
relates it to `Parse`. -/
def parseBody (src : List Nat) (frac radix : Nat) : Int × Option ParseError :=
  match parseLoop frac radix src 0 ⟨Step.stepSign, 1, 0, 0⟩ with
  | .error (n, e) => (n, some e)
  | .ok st =>
    match padLoop radix st.sign (frac - st.expDigs) st.num with
    | .error (n, e) => (n, some e)
    | .ok num =>
      if st.step ≠ Step.stepMant ∧ st.step ≠ Step.stepExp then
        (0, some ParseError.unexpectedEnd)
      else (num, none)

/-- The text consumed so far, according to the step of `Parse`. -/
def Shape (radix : Nat) (step : Step) (pre : List Nat) : Prop :=
  match step with
  | Step.stepSign => pre = []
  | Step.stepMantStart => pre = [43] ∨ pre = [45]
  | Step.stepMant =>
    ∃ sg m, pre = sg ++ m ∧ IsSignPrefix sg ∧ m ≠ [] ∧ ∀ c ∈ m, IsDigitOf radix c
  | Step.stepExpStart =>
    ∃ sg m, pre = sg ++ m ++ [46] ∧ IsSignPrefix sg ∧ m ≠ [] ∧ ∀ c ∈ m, IsDigitOf radix c
  | Step.stepExp =>
    ∃ sg m f, pre = sg ++ m ++ 46 :: f ∧ IsSignPrefix sg ∧ m ≠ [] ∧
      (∀ c ∈ m, IsDigitOf radix c) ∧ f ≠ [] ∧ ∀ c ∈ f, IsDigitOf radix c

/-- The value `next` computed by `inc`. -/
def incNext (prev : Int) (radix : Nat) (sign : Int) (digit : Nat) : Int :=
  wrap64 (wrap64 (prev * wrap64 (radix : Int)) + wrap64 (sign * wrap64 (digit : Int)))

/-- Simulation relation between a run of `Parse` on an unsigned text and the run
on the same text behind a sign of value `σ`. -/
def SignRel (σ : Int) (st st2 : ParseState) : Prop :=
  st.sign = 1 ∧ 0 ≤ st.num ∧ st2.sign = σ ∧ st2.num = σ * st.num ∧
    st2.expDigs = st.expDigs ∧
    (st2.step = st.step ∨ (st.step = Step.stepSign ∧ st2.step = Step.stepMantStart))

/-! ## Auxiliary lemmas -/

theorem wrap64_of_isInt64 {x : Int} (h : IsInt64 x) : wrap64 x = x := by
  unfold IsInt64 minInt64 maxInt64 at h
  unfold wrap64
  omega

theorem pop_eq (num radix : Nat) (h : num < 2 ^ 64) :
    pop num radix = (num / radix, num % radix) := by
  unfold pop
  have h1 : num / radix * radix ≤ num := Nat.div_mul_le_self num radix
  have h2 : num % radix = num - num / radix * radix := by
    have := Nat.div_add_mod num radix
    rw [Nat.mul_comm] at this
    omega
  simp only [Prod.mk.injEq, true_and]
  rw [h2]
  generalize num / radix * radix = q at *
  omega

theorem digits_lookup {d : Nat} (h : d < 36) : digits[d]? = some (digitChar d) := by
  unfold digitChar
  interval_cases d <;> rfl

theorem toDigit_digitChar {d : Nat} (h : d < 36) : toDigit (digitChar d) = d := by
  interval_cases d <;> rfl

theorem unum_eq {num : Int} (h : IsInt64 num) :
    (if num < 0 then toUint64 (wrap64 (-num)) else toUint64 num) = num.natAbs := by
  unfold IsInt64 minInt64 maxInt64 at h
  unfold toUint64 wrap64
  split <;> omega

theorem lePad_length (rad k n : Nat) : (lePad rad k n).length = k := by
  induction k generalizing n with
  | zero => rfl
  | succ k ih => simp [lePad, ih]

theorem lePad_lt {rad : Nat} (hr : 0 < rad) (k n : Nat) : ∀ d ∈ lePad rad k n, d < rad := by
  induction k generalizing n with
  | zero => simp [lePad]
  | succ k ih =>
    intro d hd
    simp only [lePad, List.mem_cons] at hd
    rcases hd with hd | hd
    · rw [hd]; exact Nat.mod_lt _ hr
    · exact ih _ d hd

theorem put_ok {loc : List Nat} (c : Nat) (h : loc.length < 67) : put loc c = some (c :: loc) := by
  unfold put localSize bits
  simp [h]

theorem fracLoop_false {rad : Nat} (hr : 2 ≤ rad) (hr2 : rad ≤ 36) (k n : Nat) (loc : List Nat)
    (hn : n < 2 ^ 64) (hl : loc.length + k + 2 ≤ 67) :
    fracLoop rad (k + 1) n false loc =
      some (n / rad ^ (k + 1), 46 :: ((lePad rad (k + 1) n).reverse.map digitChar) ++ loc) := by
  induction k generalizing n loc with
  | zero =>
    have hd : n % rad < 36 := lt_of_lt_of_le (Nat.mod_lt _ (by omega)) hr2
    simp [fracLoop, pop_eq n rad hn, digits_lookup hd, put_ok _ (show loc.length < 67 by omega),
      put_ok _ (show (digitChar (n % rad) :: loc).length < 67 by simp; omega), lePad]
  | succ k ih =>
    have hd : n % rad < 36 := lt_of_lt_of_le (Nat.mod_lt _ (by omega)) hr2
    have hq : n / rad < 2 ^ 64 := lt_of_le_of_lt (Nat.div_le_self _ _) hn
    rw [fracLoop]
    simp only [pop_eq n rad hn, digits_lookup hd, put_ok _ (show loc.length < 67 by omega)]
    simp only [Bool.false_eq_true, and_false, if_false, Nat.add_one_ne_zero]
    rw [ih (n / rad) (digitChar (n % rad) :: loc) hq (by simp; omega)]
    rw [Nat.div_div_eq_div_mul, ← pow_succ']
    simp [lePad]

theorem fracOut_length_le (rad k n : Nat) : (fracOut rad k n).length ≤ k + 1 := by
  unfold fracOut
  simp only
  split
  · simp
  · have := (List.dropWhile_sublist (fun x => decide (x = 0)) (l := lePad rad k n)).length_le
    rw [lePad_length] at this
    simp
    exact this

theorem fracLoop_true {rad : Nat} (hr : 2 ≤ rad) (hr2 : rad ≤ 36) (k n : Nat) (loc : List Nat)
    (hn : n < 2 ^ 64) (hl : loc.length + k + 1 ≤ 67) :
    fracLoop rad k n true loc = some (n / rad ^ k, fracOut rad k n ++ loc) := by
  induction k generalizing n with
  | zero => simp [fracLoop, fracOut, lePad]
  | succ k ih =>
    have hq : n / rad < 2 ^ 64 := lt_of_le_of_lt (Nat.div_le_self _ _) hn
    by_cases hz : n % rad = 0
    · rw [fracLoop]
      simp only [pop_eq n rad hn, hz, and_self, if_true]
      rw [ih (n / rad) hq (by omega), Nat.div_div_eq_div_mul, ← pow_succ']
      simp [fracOut, lePad, hz]
    · have h1 := fracLoop_false hr hr2 k n loc hn (by omega)
      have h2 : fracLoop rad (k + 1) n true loc = fracLoop rad (k + 1) n false loc := by
        rw [fracLoop, fracLoop]
        simp only [pop_eq n rad hn, hz, false_and, if_false]
      rw [h2, h1]
      simp [fracOut, lePad, hz]

theorem natRepr_of_lt {rad n : Nat} (h : n < rad) : natRepr rad n = [n] := by
  unfold natRepr
  split
  · simp [*]
  · rw [Nat.digits_of_lt rad n ‹_› h]; rfl

theorem natRepr_of_ge {rad n : Nat} (hr : 2 ≤ rad) (h : rad ≤ n) :
    natRepr rad n = natRepr rad (n / rad) ++ [n % rad] := by
  have hq : n / rad ≠ 0 := by
    have := Nat.div_pos h (by omega)
    omega
  unfold natRepr
  rw [if_neg (by omega), if_neg hq, Nat.digits_def' (by omega) (by omega)]
  simp

theorem intLoop_spec {rad : Nat} (hr : 2 ≤ rad) (hr2 : rad ≤ 36) (fuel m n : Nat) (loc : List Nat)
    (hm : n < rad ^ m) (h1 : 1 ≤ m) (hf : m ≤ fuel + 1) (hl : loc.length + m ≤ 67)
    (hn : n < 2 ^ 64) :
    ∃ u l, intLoop rad fuel n loc = some (u, l) ∧ u < rad ∧ l.length + 1 ≤ loc.length + m ∧
      digitChar u :: l = (natRepr rad n).map digitChar ++ loc := by
  induction fuel generalizing m n loc with
  | zero =>
    have hm1 : m = 1 := by omega
    subst hm1
    rw [pow_one] at hm
    refine ⟨n, loc, ?_, hm, le_refl _, ?_⟩
    · rw [intLoop]; simp [Nat.not_le.mpr hm]
    · simp [natRepr_of_lt hm]
  | succ fuel ih =>
    by_cases hlt : n < rad
    · refine ⟨n, loc, ?_, hlt, by omega, ?_⟩
      · rw [intLoop]; simp [Nat.not_le.mpr hlt]
      · simp [natRepr_of_lt hlt]
    · have hge : rad ≤ n := Nat.le_of_not_lt hlt
      have hm2 : 2 ≤ m := by
        rcases Nat.lt_or_ge m 2 with h | h
        · have : m = 1 := by omega
          subst this
          rw [pow_one] at hm
          omega
        · exact h
      obtain ⟨m', rfl⟩ : ∃ m', m = m' + 1 := ⟨m - 1, by omega⟩
      have hq : n / rad < rad ^ m' := by
        apply Nat.div_lt_of_lt_mul
        rw [← pow_succ']
        exact hm
      have hd : n % rad < 36 := lt_of_lt_of_le (Nat.mod_lt _ (by omega)) hr2
      have hq2 : n / rad < 2 ^ 64 := lt_of_le_of_lt (Nat.div_le_self _ _) hn
      obtain ⟨u, l, e1, e2, e3, e4⟩ :=
        ih m' (n / rad) (digitChar (n % rad) :: loc) hq (by omega) (by omega)
          (by simp; omega) hq2
      refine ⟨u, l, ?_, e2, ?_, ?_⟩
      · rw [intLoop]
        simp only [ge_iff_le, hge, if_true, pop_eq n rad hn, digits_lookup hd,
          put_ok _ (show loc.length < 67 by omega)]
        exact e1
      · simp at e3; omega
      · rw [e4, natRepr_of_ge hr hge]
        simp

theorem natAbs_lt_of_isInt64 {num : Int} (h : IsInt64 num) : num.natAbs < 2 ^ 64 := by
  unfold IsInt64 minInt64 maxInt64 at h
  omega

theorem two_pow_le_radix_pow {radix : Nat} (hr : 2 ≤ radix) (k : Nat) : 2 ^ k ≤ radix ^ k :=
  Nat.pow_le_pow_left hr k

theorem Append_text (buf : List Nat) {num : Int} {frac radix : Nat} (hnum : IsInt64 num)
    (hf : frac ≤ 64) (hr : 2 ≤ radix) (hr2 : radix ≤ 36) :
    Append buf num frac radix = some (buf ++ formatText num frac radix, none) := by
  have hM := natAbs_lt_of_isInt64 hnum
  have hrad : radix % 2 ^ 64 = radix := Nat.mod_eq_of_lt (by omega)
  unfold Append
  rw [if_neg (by simp [radixMin, radixMax, digits]; omega), if_neg (by simp [bits]; omega)]
  simp only [unum_eq hnum, hrad]
  rw [fracLoop_true hr hr2 frac num.natAbs [] hM (by simp; omega)]
  simp only [List.append_nil]
  have hlen := fracOut_length_le radix frac num.natAbs
  -- the integer part has at most `max 1 (64 - frac)` digits
  have hI : num.natAbs / radix ^ frac < radix ^ (max 1 (64 - frac)) := by
    rcases Nat.lt_or_ge frac 64 with h | h
    · have e : max 1 (64 - frac) = 64 - frac := by omega
      rw [e]
      apply Nat.div_lt_of_lt_mul
      rw [← pow_add, show frac + (64 - frac) = 64 by omega]
      exact lt_of_lt_of_le hM (two_pow_le_radix_pow hr 64)
    · have e : max 1 (64 - frac) = 1 := by omega
      have e2 : frac = 64 := by omega
      rw [e, e2, pow_one]
      have : num.natAbs / radix ^ 64 = 0 :=
        Nat.div_eq_of_lt (lt_of_lt_of_le hM (two_pow_le_radix_pow hr 64))
      omega
  obtain ⟨u, l, e1, e2, e3, e4⟩ :=
    intLoop_spec hr hr2 bits (max 1 (64 - frac)) (num.natAbs / radix ^ frac)
      (fracOut radix frac num.natAbs) hI (by omega) (by simp [bits]; omega) (by omega)
      (lt_of_le_of_lt (Nat.div_le_self _ _) hM)
  rw [e1]
  simp only [digits_lookup (show u < 36 by omega), put_ok _ (show l.length < 67 by omega)]
  by_cases hneg : num < 0
  · simp only [hneg, decide_True, if_true,
      put_ok _ (show (digitChar u :: l).length < 67 by simp; omega)]
    simp [formatText, hneg, e4]
  · simp only [hneg, decide_False, Bool.false_eq_true, if_false]
    simp [formatText, hneg, e4]

theorem mod_pow_succ_split (rad k n : Nat) (hr : 0 < rad) :
    n % rad ^ (k + 1) % rad = n % rad ∧ n % rad ^ (k + 1) / rad = n / rad % rad ^ k := by
  have h : n % rad ^ (k + 1) = n % rad + rad * (n / rad % rad ^ k) := by
    rw [pow_succ', Nat.mod_mul]
  have hlt : n % rad < rad := Nat.mod_lt _ hr
  constructor
  · rw [h, Nat.add_mul_mod_self_left, Nat.mod_mod]
  · rw [h, Nat.add_mul_div_left _ _ hr, Nat.div_eq_of_lt hlt, Nat.zero_add]

theorem lePad_eq_digits {rad : Nat} (hr : 2 ≤ rad) (k n : Nat) :
    lePad rad k n = Nat.digits rad (n % rad ^ k) ++
      List.replicate (k - (Nat.digits rad (n % rad ^ k)).length) 0 := by
  induction k generalizing n with
  | zero => simp [lePad, Nat.mod_one]
  | succ k ih =>
    obtain ⟨h1, h2⟩ := mod_pow_succ_split rad k n (by omega)
    rw [lePad, ih (n / rad)]
    by_cases hF : n % rad ^ (k + 1) = 0
    · rw [hF] at h1 h2
      simp at h1 h2
      rw [hF, ← h1, ← h2]
      simp [List.replicate_succ]
    · rw [Nat.digits_def' (by omega) (Nat.pos_of_ne_zero hF), h1, h2]
      simp

theorem dropWhile_lePad_nil {rad : Nat} (hr : 2 ≤ rad) (k n : Nat) :
    (lePad rad k n).dropWhile (· = 0) = [] ↔ n % rad ^ k = 0 := by
  induction k generalizing n with
  | zero => simp [lePad, Nat.mod_one]
  | succ k ih =>
    obtain ⟨h1, h2⟩ := mod_pow_succ_split rad k n (by omega)
    have h : n % rad ^ (k + 1) = n % rad + rad * (n / rad % rad ^ k) := by
      rw [pow_succ', Nat.mod_mul]
    rw [lePad]
    by_cases hz : n % rad = 0
    · simp only [List.dropWhile_cons, hz, decide_True, if_true]
      rw [ih (n / rad), h, hz, Nat.zero_add]
      constructor
      · intro e; rw [e]; simp
      · intro e
        rcases Nat.mul_eq_zero.mp e with e | e
        · omega
        · exact e
    · simp only [List.dropWhile_cons, hz, decide_False, Bool.false_eq_true, if_false]
      constructor
      · intro e; cases e
      · intro e; rw [h] at e; omega

theorem fracOut_eq_spec {rad : Nat} (hr : 2 ≤ rad) (k n : Nat) :
    fracOut rad k n =
      if n % rad ^ k ≠ 0 then
        46 :: (stripTrailingZeros (padLeft rad k (n % rad ^ k))).map digitChar
      else [] := by
  have hrev : (padLeft rad k (n % rad ^ k)).reverse = lePad rad k n := by
    rw [lePad_eq_digits hr]; simp [padLeft]
  unfold fracOut stripTrailingZeros
  rw [hrev]
  by_cases hz : n % rad ^ k = 0
  · simp [(dropWhile_lePad_nil hr k n).mpr hz, hz]
  · have := mt (dropWhile_lePad_nil hr k n).mp hz
    simp [this, hz]

theorem formatText_eq_spec (num : Int) (frac : Nat) {radix : Nat} (hr : 2 ≤ radix) :
    formatText num frac radix = FormatSpec num frac radix := by
  unfold formatText FormatSpec
  rw [fracOut_eq_spec hr]
  simp

theorem accum_nil (radix a : Nat) : accum radix a [] = a := rfl

theorem accum_cons (radix a d : Nat) (ds : List Nat) :
    accum radix a (d :: ds) = accum radix (a * radix + d) ds := rfl

theorem accum_append (radix a : Nat) (xs ys : List Nat) :
    accum radix a (xs ++ ys) = accum radix (accum radix a xs) ys := by
  simp [accum, List.foldl_append]

theorem accum_ge {radix : Nat} (hr : 1 ≤ radix) (a : Nat) (ds : List Nat) :
    a ≤ accum radix a ds := by
  induction ds generalizing a with
  | nil => exact le_refl _
  | cons d ds ih =>
    rw [accum_cons]
    have h1 : a ≤ a * radix := Nat.le_mul_of_pos_right a hr
    exact le_trans (by omega) (ih (a * radix + d))

theorem accum_reverse (radix : Nat) (l : List Nat) :
    accum radix 0 l.reverse = Nat.ofDigits radix l := by
  induction l with
  | nil => rfl
  | cons h t ih =>
    rw [List.reverse_cons, accum_append, ih, accum_cons, accum_nil, Nat.ofDigits_cons]
    ring

theorem digitsValue_eq_accum (radix : Nat) (ds : List Nat) :
    digitsValue radix ds = accum radix 0 ds := by
  unfold digitsValue
  rw [← accum_reverse, List.reverse_reverse]

theorem isInt64_mono {s : Int} (hs : IsSign s) {a b : Nat} (hab : a ≤ b)
    (h : IsInt64 (s * (b : Int))) : IsInt64 (s * (a : Int)) := by
  unfold IsInt64 minInt64 maxInt64 at *
  rcases hs with rfl | rfl <;> omega

theorem inc_exact {radix : Nat} (hr : 1 ≤ radix) (hr2 : radix ≤ 36) {s : Int} (hs : IsSign s)
    (a d : Nat) (hd : d < 256) (h : IsInt64 (s * ((a * radix + d : Nat) : Int))) :
    inc (s * (a : Int)) radix s d = (s * ((a * radix + d : Nat) : Int), none) := by
  have hle : a ≤ a * radix := Nat.le_mul_of_pos_right a hr
  have e1 : wrap64 (radix : Int) = radix := wrap64_of_isInt64 (by
    unfold IsInt64 minInt64 maxInt64; omega)
  have e2 : wrap64 (d : Int) = d := wrap64_of_isInt64 (by
    unfold IsInt64 minInt64 maxInt64; omega)
  have e3 : wrap64 (s * (d : Int)) = s * d := wrap64_of_isInt64 (by
    unfold IsInt64 minInt64 maxInt64; rcases hs with rfl | rfl <;> omega)
  have e4 : wrap64 (s * (a : Int) * (radix : Int)) = s * ((a * radix : Nat) : Int) := by
    have : s * (a : Int) * (radix : Int) = s * ((a * radix : Nat) : Int) := by
      push_cast; ring
    rw [this]
    exact wrap64_of_isInt64 (isInt64_mono hs (by omega) h)
  have e5 : s * ((a * radix : Nat) : Int) + s * (d : Int) = s * ((a * radix + d : Nat) : Int) := by
    push_cast; ring
  unfold inc
  simp only [e1, e2, e3, e4, e5, wrap64_of_isInt64 h]
  have hA : (a : Int) ≤ ((a * radix + d : Nat) : Int) := by
    have : a ≤ a * radix + d := by omega
    exact_mod_cast this
  generalize ((a * radix + d : Nat) : Int) = N at *
  rcases hs with rfl | rfl
  · rw [if_neg (by omega), if_neg (by omega)]
  · rw [if_neg (by omega), if_neg (by omega)]

theorem advance_advance (s : Step) : advance (advance s) = advance s := by
  cases s <;> rfl

theorem toDigit_le (c : Nat) : toDigit c ≤ 255 := by
  unfold toDigit unDigit
  split
  · omega
  · simp only
    split <;> omega

theorem toDigit_special : toDigit 43 = 255 ∧ toDigit 45 = 255 ∧ toDigit 46 = 255 := by
  decide

theorem not_special_of_digit {c radix : Nat} (hr2 : radix ≤ 36) (h : toDigit c < radix) :
    c ≠ 43 ∧ c ≠ 45 ∧ c ≠ 46 ∧ toDigit c ≠ unDigit := by
  obtain ⟨h1, h2, h3⟩ := toDigit_special
  refine ⟨?_, ?_, ?_, ?_⟩
  · rintro rfl; omega
  · rintro rfl; omega
  · rintro rfl; omega
  · unfold unDigit; omega

theorem parseChar_digit (frac : Nat) {radix : Nat} (hr : 1 ≤ radix) (hr2 : radix ≤ 36) (ind c : Nat)
    (step : Step) {s : Int} (hs : IsSign s) (e a : Nat) (hc : toDigit c < radix)
    (hb : advance step = Step.stepExp → e + 1 ≤ frac)
    (h : IsInt64 (s * ((a * radix + toDigit c : Nat) : Int))) :
    parseChar frac radix ind c ⟨step, s, e, s * (a : Int)⟩ =
      .ok ⟨advance step, s, if advance step = Step.stepExp then e + 1 else e,
        s * ((a * radix + toDigit c : Nat) : Int)⟩ := by
  obtain ⟨n1, n2, n3, n4⟩ := not_special_of_digit hr2 hc
  have hd := toDigit_le c
  have hinc := inc_exact hr hr2 hs a (toDigit c) (by omega) h
  have e2 : wrap64 ((toDigit c : Nat) : Int) = toDigit c := wrap64_of_isInt64 (by
    unfold IsInt64 minInt64 maxInt64; omega)
  have e3 : wrap64 (s * ((toDigit c : Nat) : Int)) = s * (toDigit c : Nat) := wrap64_of_isInt64 (by
    unfold IsInt64 minInt64 maxInt64; rcases hs with rfl | rfl <;> omega)
  have hzero : s * (a : Int) = 0 → a = 0 := by
    intro h0
    rcases hs with rfl | rfl <;> omega
  have hnge : ¬ (toDigit c ≥ radix) := by omega
  by_cases h0 : s * (a : Int) = 0
  · have ha := hzero h0
    subst ha
    cases step <;>
      simp [parseChar, n1, n2, n3, n4, hnge, advance, e2, e3] <;>
      simp [advance] at hb <;> omega
  · cases step <;>
      simp [parseChar, n1, n2, n3, n4, hnge, advance, h0, hinc] <;>
      simp [advance] at hb <;> omega

theorem parseChar_zero {frac radix : Nat} (hr : 1 ≤ radix) (ind c : Nat) (step : Step)
    (hstep : step = Step.stepExpStart ∨ step = Step.stepExp) (s : Int) (e : Nat) (n : Int)
    (hc : toDigit c = 0) (hb : frac ≤ e) :
    parseChar frac radix ind c ⟨step, s, e, n⟩ = .ok ⟨Step.stepExp, s, e + 1, n⟩ := by
  have n1 : c ≠ 43 := by rintro rfl; revert hc; decide
  have n2 : c ≠ 45 := by rintro rfl; revert hc; decide
  have hge : ¬ (radix ≤ 0) := by omega
  have hlt : frac < e + 1 := by omega
  rcases hstep with rfl | rfl <;> simp [parseChar, hc, unDigit, hge, hlt]

theorem parseChar_point (frac radix ind : Nat) (s : Int) (e : Nat) (n : Int) :
    parseChar frac radix ind 46 ⟨Step.stepMant, s, e, n⟩ = .ok ⟨Step.stepExpStart, s, e, n⟩ := by
  simp [parseChar]

theorem parseChar_plus (frac radix ind : Nat) (s : Int) (e : Nat) (n : Int) :
    parseChar frac radix ind 43 ⟨Step.stepSign, s, e, n⟩ = .ok ⟨Step.stepMantStart, s, e, n⟩ := by
  simp [parseChar]

theorem parseChar_minus (frac radix ind : Nat) (s : Int) (e : Nat) (n : Int) :
    parseChar frac radix ind 45 ⟨Step.stepSign, s, e, n⟩ = .ok ⟨Step.stepMantStart, -1, e, n⟩ := by
  simp [parseChar]

theorem parseLoop_cons_ok {frac radix : Nat} {c ind : Nat} {st st1 : ParseState} (rest : List Nat)
    (h : parseChar frac radix ind c st = .ok st1) :
    parseLoop frac radix (c :: rest) ind st = parseLoop frac radix rest (ind + 1) st1 := by
  rw [parseLoop, h]

theorem parseLoop_digits (frac : Nat) {radix : Nat} (hr : 1 ≤ radix) (hr2 : radix ≤ 36) {s : Int}
    (hs : IsSign s) (cs rest : List Nat) (ind : Nat) (step : Step) (e a : Nat)
    (hc : ∀ c ∈ cs, toDigit c < radix)
    (hb : advance step = Step.stepExp → e + cs.length ≤ frac)
    (h : IsInt64 (s * (accum radix a (cs.map toDigit) : Int))) :
    parseLoop frac radix (cs ++ rest) ind ⟨step, s, e, s * (a : Int)⟩ =
      parseLoop frac radix rest (ind + cs.length)
        ⟨if cs = [] then step else advance step, s,
          if advance step = Step.stepExp then e + cs.length else e,
          s * (accum radix a (cs.map toDigit) : Int)⟩ := by
  induction cs generalizing ind step e a with
  | nil => simp [accum_nil]
  | cons c cs ih =>
    have hc1 : toDigit c < radix := hc c (List.mem_cons_self _ _)
    have hc2 : ∀ x ∈ cs, toDigit x < radix := fun x hx => hc x (List.mem_cons_of_mem _ hx)
    rw [List.map_cons, accum_cons] at h
    have h1 : IsInt64 (s * ((a * radix + toDigit c : Nat) : Int)) :=
      isInt64_mono hs (accum_ge hr _ _) h
    have hstep := parseChar_digit frac hr hr2 ind c step hs e a hc1
      (fun h' => by have := hb h'; simp at this; omega) h1
    rw [List.cons_append, parseLoop_cons_ok _ hstep]
    rw [ih (ind + 1) (advance step) _ _ hc2
      (by
        intro h'
        rw [advance_advance] at h'
        have := hb h'
        simp at this
        simp [h']
        omega) h]
    rw [advance_advance, List.map_cons, accum_cons]
    congr 1
    · simp only [List.length_cons]; omega
    · by_cases hx : advance step = Step.stepExp
      · by_cases hcs : cs = [] <;> (simp [hx, hcs]; try omega)
      · by_cases hcs : cs = [] <;> simp [hx, hcs]

theorem parseLoop_zeros (frac : Nat) {radix : Nat} (hr : 1 ≤ radix) (cs rest : List Nat) (ind : Nat)
    (step : Step) (hstep : step = Step.stepExpStart ∨ step = Step.stepExp) (s : Int) (e : Nat)
    (n : Int) (hc : ∀ c ∈ cs, toDigit c = 0) (hb : frac ≤ e) :
    parseLoop frac radix (cs ++ rest) ind ⟨step, s, e, n⟩ =
      parseLoop frac radix rest (ind + cs.length)
        ⟨if cs = [] then step else Step.stepExp, s, e + cs.length, n⟩ := by
  induction cs generalizing ind step e with
  | nil => simp
  | cons c cs ih =>
    have hc1 : toDigit c = 0 := hc c (List.mem_cons_self _ _)
    have hc2 : ∀ x ∈ cs, toDigit x = 0 := fun x hx => hc x (List.mem_cons_of_mem _ hx)
    rw [List.cons_append, parseLoop_cons_ok _ (parseChar_zero hr ind c step hstep s e n hc1 hb)]
    rw [ih (ind + 1) Step.stepExp (Or.inr rfl) (e + 1) hc2 (by omega)]
    congr 1
    · simp only [List.length_cons]; omega
    · by_cases hcs : cs = [] <;> (simp [hcs]; try omega)

theorem accum_replicate_zero (radix a n : Nat) :
    accum radix a (List.replicate n 0) = a * radix ^ n := by
  induction n generalizing a with
  | zero => simp [accum_nil]
  | succ n ih =>
    rw [List.replicate_succ, accum_cons, ih, Nat.add_zero, pow_succ']
    ring

theorem padLoop_exact {radix : Nat} (hr : 1 ≤ radix) (hr2 : radix ≤ 36) {s : Int} (hs : IsSign s)
    (n a : Nat) (h : IsInt64 (s * (accum radix a (List.replicate n 0) : Int))) :
    padLoop radix s n (s * (a : Int)) = .ok (s * (accum radix a (List.replicate n 0) : Int)) := by
  induction n generalizing a with
  | zero => simp [padLoop, accum_nil]
  | succ n ih =>
    rw [List.replicate_succ, accum_cons] at h ⊢
    have h1 : IsInt64 (s * ((a * radix + 0 : Nat) : Int)) :=
      isInt64_mono hs (accum_ge hr _ _) h
    rw [padLoop, inc_exact hr hr2 hs a 0 (by omega) h1]
    exact ih _ h

theorem signValue_isSign (sg : List Nat) : IsSign (signValue sg) := by
  unfold signValue IsSign
  split <;> simp

theorem parseLoop_sign (frac radix : Nat) {sg : List Nat}
    (hsg : sg = [] ∨ sg = [43] ∨ sg = [45]) (rest : List Nat) :
    ∃ step, advance step = Step.stepMant ∧
      parseLoop frac radix (sg ++ rest) 0 ⟨Step.stepSign, 1, 0, 0⟩ =
        parseLoop frac radix rest sg.length ⟨step, signValue sg, 0, signValue sg * ((0 : Nat) : Int)⟩ := by
  rcases hsg with rfl | rfl | rfl
  · exact ⟨Step.stepSign, rfl, by simp [signValue]⟩
  · refine ⟨Step.stepMantStart, rfl, ?_⟩
    rw [List.singleton_append, parseLoop_cons_ok _ (parseChar_plus frac radix 0 1 0 0)]
    simp [signValue]
  · refine ⟨Step.stepMantStart, rfl, ?_⟩
    rw [List.singleton_append, parseLoop_cons_ok _ (parseChar_minus frac radix 0 1 0 0)]
    simp [signValue]

theorem Parse_of_loop {src : List Nat} {frac radix : Nat} (hsrc : src ≠ []) (hr : 2 ≤ radix)
    (hr2 : radix ≤ 36) (st : ParseState) {v : Int}
    (hloop : parseLoop frac radix src 0 ⟨Step.stepSign, 1, 0, 0⟩ = .ok st)
    (hpad : padLoop radix st.sign (frac - st.expDigs) st.num = .ok v)
    (hstep : st.step = Step.stepMant ∨ st.step = Step.stepExp) :
    Parse src frac radix = (v, none) := by
  unfold Parse
  rw [if_neg (by simpa using hsrc), if_neg (by simp [radixMin, radixMax, digits]; omega)]
  simp only [hloop, hpad]
  rcases hstep with h | h <;> simp [h]

theorem parse_wellformed {radix : Nat} (frac : Nat) (sg m f : List Nat) (hr : 2 ≤ radix)
    (hr2 : radix ≤ 36) (hsg : sg = [] ∨ sg = [43] ∨ sg = [45]) (hm : m ≠ [])
    (hmd : ∀ c ∈ m, toDigit c < radix) (hfd : ∀ c ∈ f, toDigit c < radix)
    (hz : ∀ c ∈ f.drop frac, toDigit c = 0)
    (hV : IsInt64 (scaledValue radix frac sg m f)) :
    Parse (fracInput sg m f) frac radix = (scaledValue radix frac sg m f, none) := by
  have hs := signValue_isSign sg
  have hr1 : 1 ≤ radix := by omega
  unfold scaledValue at hV ⊢
  rw [digitsValue_eq_accum, List.append_assoc, accum_append] at hV ⊢
  -- the mantissa alone is in range
  have hVm : IsInt64 (signValue sg * (accum radix 0 (m.map toDigit) : Int)) :=
    isInt64_mono hs (accum_ge hr1 _ _) hV
  obtain ⟨step0, hadv, hsign⟩ := parseLoop_sign frac radix hsg (m ++ (if f = [] then [] else 46 :: f))
  have hmant := parseLoop_digits frac hr1 hr2 hs m (if f = [] then [] else 46 :: f)
    sg.length step0 0 0 hmd (by rw [hadv]; intro h; cases h) hVm
  rw [hadv, if_neg hm] at hmant
  simp only [reduceCtorEq, if_false] at hmant
  have hne : fracInput sg m f ≠ [] := by
    unfold fracInput
    cases m with
    | nil => exact absurd rfl hm
    | cons c cs => simp
  by_cases hf : f = []
  · subst hf
    simp only [if_true, List.append_nil] at hsign hmant
    simp only [List.take_nil, List.map_nil, List.length_nil, Nat.sub_zero, List.nil_append] at hV ⊢
    refine Parse_of_loop hne hr hr2 ⟨Step.stepMant, signValue sg, 0,
      signValue sg * (accum radix 0 (m.map toDigit) : Int)⟩ ?_ ?_ (Or.inl rfl)
    · unfold fracInput
      simp only [if_true, List.append_nil]
      rw [hsign, hmant]
      rfl
    · exact padLoop_exact hr1 hr2 hs _ _ hV
  · simp only [hf, if_false] at hsign hmant
    rw [parseLoop_cons_ok _ (parseChar_point frac radix _ _ _ _)] at hmant
    rw [accum_append] at hV ⊢
    have hVf : IsInt64 (signValue sg *
        (accum radix (accum radix 0 (m.map toDigit)) ((f.take frac).map toDigit) : Int)) :=
      isInt64_mono hs (accum_ge hr1 _ _) hV
    have hfrac := parseLoop_digits frac hr1 hr2 hs (f.take frac) (f.drop frac)
      (sg.length + m.length + 1) Step.stepExpStart 0 (accum radix 0 (m.map toDigit))
      (fun c hc => hfd c (List.mem_of_mem_take hc))
      (by intro _; simp) hVf
    rw [List.take_append_drop] at hfrac
    simp only [advance, if_true, Nat.zero_add] at hfrac
    rcases Nat.lt_or_ge frac f.length with hj | hj
    · -- more digits than the budget: the excess is all zeros
      have htake : (f.take frac).length = frac := by simp; omega
      have hdrop : f.drop frac ≠ [] := by simp; omega
      have hzero := parseLoop_zeros frac hr1 (f.drop frac) []
        (sg.length + m.length + 1 + (f.take frac).length)
        (if f.take frac = [] then Step.stepExpStart else Step.stepExp)
        (by split <;> simp) (signValue sg) (f.take frac).length
        (signValue sg * (accum radix (accum radix 0 (m.map toDigit)) ((f.take frac).map toDigit) : Int))
        hz (by omega)
      rw [List.append_nil] at hzero
      refine Parse_of_loop hne hr hr2 ⟨Step.stepExp, signValue sg,
        (f.take frac).length + (f.drop frac).length,
        signValue sg *
          (accum radix (accum radix 0 (m.map toDigit)) ((f.take frac).map toDigit) : Int)⟩
        ?_ ?_ (Or.inr rfl)
      · unfold fracInput
        simp only [hf, if_false, List.append_assoc]
        rw [hsign, hmant, hfrac, hzero, if_neg hdrop]
        rfl
      · simp only
        have e1 : frac - ((f.take frac).length + (f.drop frac).length) = 0 := by omega
        have e2 : frac - f.length = 0 := by omega
        rw [e1, e2]
        simp [padLoop, accum_nil]
    · -- all fractional digits fit the budget
      have htake : f.take frac = f := List.take_of_length_le hj
      have hdrop : f.drop frac = [] := List.drop_of_length_le hj
      rw [htake, hdrop] at hfrac
      rw [htake] at hV ⊢
      refine Parse_of_loop hne hr hr2 ⟨Step.stepExp, signValue sg, f.length,
        signValue sg * (accum radix (accum radix 0 (m.map toDigit)) (f.map toDigit) : Int)⟩ ?_ ?_
        (Or.inr rfl)
      · unfold fracInput
        simp only [hf, if_false, List.append_assoc]
        rw [hsign, hmant, hfrac, if_neg hf]
        rfl
      · exact padLoop_exact hr1 hr2 hs _ _ hV

theorem formatText_shape (num : Int) (frac radix : Nat) :
    formatText num frac radix =
      fracInput (signText num) (intText num frac radix) (fracDigitsText num frac radix) := by
  unfold formatText fracInput signText intText fracDigitsText fracOut
  simp only [List.append_assoc, List.map_eq_nil_iff, List.reverse_eq_nil_iff]

theorem map_toDigit_digitChar (l : List Nat) (h : ∀ d ∈ l, d < 36) :
    (l.map digitChar).map toDigit = l := by
  induction l with
  | nil => rfl
  | cons d l ih =>
    simp only [List.map_cons]
    rw [toDigit_digitChar (h d (List.mem_cons_self _ _)),
      ih (fun x hx => h x (List.mem_cons_of_mem _ hx))]

theorem natRepr_lt {radix : Nat} (hr : 2 ≤ radix) (n : Nat) : ∀ d ∈ natRepr radix n, d < radix := by
  intro d hd
  unfold natRepr at hd
  split at hd
  · simp at hd; omega
  · exact Nat.digits_lt_base (by omega) (List.mem_reverse.mp hd)

theorem natRepr_ne_nil (radix n : Nat) : natRepr radix n ≠ [] := by
  unfold natRepr
  split
  · simp
  · simpa [Nat.digits_ne_nil_iff_ne_zero] using ‹¬ n = 0›

theorem accum_natRepr (radix n : Nat) : accum radix 0 (natRepr radix n) = n := by
  unfold natRepr
  split
  · subst n; simp [accum]
  · rw [accum_reverse, Nat.ofDigits_digits]

theorem accum_lePad (radix a k n : Nat) :
    accum radix a (lePad radix k n).reverse = a * radix ^ k + n % radix ^ k := by
  induction k generalizing n with
  | zero => simp [lePad, accum_nil, Nat.mod_one]
  | succ k ih =>
    have h : n % radix ^ (k + 1) = n % radix + radix * (n / radix % radix ^ k) := by
      rw [pow_succ', Nat.mod_mul]
    rw [lePad, List.reverse_cons, accum_append, ih, accum_cons, accum_nil, h, pow_succ']
    ring

theorem reverse_dropWhile_zero (l : List Nat) :
    (l.dropWhile (· = 0)).reverse ++
        List.replicate (l.length - (l.dropWhile (· = 0)).length) 0 = l.reverse := by
  induction l with
  | nil => rfl
  | cons x l ih =>
    by_cases hx : x = 0
    · subst hx
      have hle : (l.dropWhile (· = 0)).length ≤ l.length :=
        (List.dropWhile_sublist _).length_le
      simp only [List.dropWhile_cons, decide_True, if_true, List.length_cons, List.reverse_cons]
      rw [show l.length + 1 - (l.dropWhile (· = 0)).length
          = (l.length - (l.dropWhile (· = 0)).length) + 1 by omega,
        List.replicate_succ', ← List.append_assoc, ih]
    · simp [List.dropWhile_cons, hx]

theorem scaledValue_format (num : Int) (frac : Nat) {radix : Nat} (hr : 2 ≤ radix)
    (hr2 : radix ≤ 36) :
    scaledValue radix frac (signText num) (intText num frac radix)
      (fracDigitsText num frac radix) = num := by
  have hlen : (fracDigitsText num frac radix).length ≤ frac := by
    unfold fracDigitsText
    simp only [List.length_map, List.length_reverse]
    have := (List.dropWhile_sublist (fun x => decide (x = 0))
      (l := lePad radix frac num.natAbs)).length_le
    rwa [lePad_length] at this
  unfold scaledValue
  rw [digitsValue_eq_accum, List.take_of_length_le hlen]
  have e1 : (intText num frac radix).map toDigit = natRepr radix (num.natAbs / radix ^ frac) :=
    map_toDigit_digitChar _ (fun d hd => lt_of_lt_of_le (natRepr_lt hr _ d hd) hr2)
  have e2 : (fracDigitsText num frac radix).map toDigit =
      ((lePad radix frac num.natAbs).dropWhile (· = 0)).reverse :=
    map_toDigit_digitChar _ (fun d hd =>
      lt_of_lt_of_le (lePad_lt (by omega) frac num.natAbs d
        ((List.dropWhile_sublist _).subset (List.mem_reverse.mp hd))) hr2)
  have e3 : (fracDigitsText num frac radix).length =
      ((lePad radix frac num.natAbs).dropWhile (· = 0)).length := by
    simp [fracDigitsText]
  rw [e1, e2, e3, List.append_assoc]
  have e4 := reverse_dropWhile_zero (lePad radix frac num.natAbs)
  rw [lePad_length] at e4
  rw [e4, accum_append, accum_natRepr, accum_lePad, Nat.div_add_mod']
  unfold signValue signText
  by_cases hneg : num < 0
  · rw [if_pos hneg, if_pos rfl]; omega
  · rw [if_neg hneg, if_neg (by simp)]; omega

theorem format_parse {num : Int} {frac radix : Nat} (hnum : IsInt64 num) (hr : 2 ≤ radix)
    (hr2 : radix ≤ 36) :
    Parse (formatText num frac radix) frac radix = (num, none) := by
  have hval := scaledValue_format num frac hr hr2
  rw [formatText_shape]
  have h := parse_wellformed frac (signText num)
    (intText num frac radix) (fracDigitsText num frac radix) hr hr2
    (by unfold signText; split <;> simp)
    (by unfold intText; simpa using natRepr_ne_nil _ _)
    (by
      intro c hc
      unfold intText at hc
      obtain ⟨d, hd, rfl⟩ := List.mem_map.mp hc
      have := natRepr_lt hr _ d hd
      rw [toDigit_digitChar (by omega)]
      exact this)
    (by
      intro c hc
      unfold fracDigitsText at hc
      obtain ⟨d, hd, rfl⟩ := List.mem_map.mp hc
      have := lePad_lt (show 0 < radix by omega) frac num.natAbs d
        ((List.dropWhile_sublist _).subset (List.mem_reverse.mp hd))
      rw [toDigit_digitChar (by omega)]
      exact this)
    (by
      have hlen : (fracDigitsText num frac radix).length ≤ frac := by
        unfold fracDigitsText
        simp only [List.length_map, List.length_reverse]
        have := (List.dropWhile_sublist (fun x => decide (x = 0))
          (l := lePad radix frac num.natAbs)).length_le
        rwa [lePad_length] at this
      rw [List.drop_of_length_le hlen]
      simp)
    (by rw [hval]; exact hnum)
  rw [h, hval]

theorem parseChar_eq (frac radix ind c : Nat) (st : ParseState) :
    parseChar frac radix ind c st =
      if st.step = Step.stepSign ∧ c = 43 then
        .ok ⟨Step.stepMantStart, st.sign, st.expDigs, st.num⟩
      else if st.step = Step.stepSign ∧ c = 45 then
        .ok ⟨Step.stepMantStart, -1, st.expDigs, st.num⟩
      else if st.step = Step.stepMant ∧ c = 46 then
        .ok ⟨Step.stepExpStart, st.sign, st.expDigs, st.num⟩
      else digitStep frac radix ind (toDigit c) (advance st.step) st := by
  obtain ⟨step, sign, e, num⟩ := st
  cases step <;> simp only [parseChar, digitStep, advance, reduceCtorEq, false_and, true_and,
    if_false, if_true]

theorem inc_error_zero {prev : Int} {radix : Nat} {sign : Int} {digit : Nat} {n : Int}
    {e : ParseError} (h : inc prev radix sign digit = (n, some e)) :
    n = 0 ∧ (e = ParseError.overflow ∨ e = ParseError.underflow) := by
  unfold inc at h
  simp only at h
  split_ifs at h <;> simp at h <;> simp [← h.1, ← h.2]

theorem digitStep_error {frac radix ind digit : Nat} {step : Step} {st : ParseState} {n : Int}
    {e : ParseError} (h : digitStep frac radix ind digit step st = .error (n, e)) :
    n = 0 ∧ e ≠ ParseError.unsupportedRadix ∧ e ≠ ParseError.emptyInput := by
  unfold digitStep at h
  rcases hinc : inc st.num radix st.sign digit with ⟨n1, _ | e1⟩
  · simp only [hinc] at h
    split_ifs at h <;> cases h <;> simp
  · obtain ⟨-, he⟩ := inc_error_zero hinc
    simp only [hinc] at h
    split_ifs at h <;> cases h <;> rcases he with rfl | rfl <;> simp

theorem parseChar_error {frac radix ind c : Nat} {st : ParseState} {n : Int} {e : ParseError}
    (h : parseChar frac radix ind c st = .error (n, e)) :
    n = 0 ∧ e ≠ ParseError.unsupportedRadix ∧ e ≠ ParseError.emptyInput := by
  rw [parseChar_eq] at h
  split_ifs at h
  exact digitStep_error h

theorem parseLoop_append (frac radix : Nat) (xs ys : List Nat) (ind : Nat) (st : ParseState) :
    parseLoop frac radix (xs ++ ys) ind st =
      match parseLoop frac radix xs ind st with
      | .error e => .error e
      | .ok st1 => parseLoop frac radix ys (ind + xs.length) st1 := by
  induction xs generalizing ind st with
  | nil => simp [parseLoop]
  | cons c xs ih =>
    rw [List.cons_append, parseLoop, parseLoop]
    cases h : parseChar frac radix ind c st with
    | error e => rfl
    | ok st1 =>
      simp only
      rw [ih]
      simp only [List.length_cons]
      rw [show ind + 1 + xs.length = ind + (xs.length + 1) by omega]

theorem parseLoop_error {frac radix : Nat} {cs : List Nat} {ind : Nat} {st : ParseState} {n : Int}
    {e : ParseError} (h : parseLoop frac radix cs ind st = .error (n, e)) :
    n = 0 ∧ e ≠ ParseError.unsupportedRadix ∧ e ≠ ParseError.emptyInput := by
  induction cs generalizing ind st with
  | nil => simp [parseLoop] at h
  | cons c cs ih =>
    rw [parseLoop] at h
    cases hc : parseChar frac radix ind c st with
    | error e1 =>
      rw [hc] at h
      simp only [Except.error.injEq] at h
      subst h
      exact parseChar_error hc
    | ok st1 =>
      rw [hc] at h
      exact ih h

theorem padLoop_error {radix : Nat} {sign : Int} {k : Nat} {num n : Int} {e : ParseError}
    (h : padLoop radix sign k num = .error (n, e)) :
    n = 0 ∧ e ≠ ParseError.unsupportedRadix ∧ e ≠ ParseError.emptyInput := by
  induction k generalizing num with
  | zero => simp [padLoop] at h
  | succ k ih =>
    rw [padLoop] at h
    rcases hinc : inc num radix sign 0 with ⟨n1, _ | e1⟩
    · rw [hinc] at h
      exact ih h
    · obtain ⟨-, he⟩ := inc_error_zero hinc
      rw [hinc] at h
      simp only [Except.error.injEq, Prod.mk.injEq] at h
      rcases he with rfl | rfl <;> simp [← h.1, ← h.2]

theorem Parse_empty (frac radix : Nat) : Parse [] frac radix = (0, some ParseError.emptyInput) := by
  simp [Parse]

theorem Parse_bad_radix {src : List Nat} (hsrc : src ≠ []) (frac : Nat) {radix : Nat}
    (hr : radix < 2 ∨ radix > 36) :
    Parse src frac radix = (0, some ParseError.unsupportedRadix) := by
  unfold Parse
  rw [if_neg (by simpa using hsrc), if_pos (by simp [radixMin, radixMax, digits]; omega)]

theorem Parse_valid {src : List Nat} (hsrc : src ≠ []) (frac : Nat) {radix : Nat}
    (hr : 2 ≤ radix) (hr2 : radix ≤ 36) : Parse src frac radix = parseBody src frac radix := by
  unfold Parse parseBody
  rw [if_neg (by simpa using hsrc), if_neg (by simp [radixMin, radixMax, digits]; omega)]

theorem parseBody_error {src : List Nat} {frac radix : Nat} {e : ParseError}
    (h : (parseBody src frac radix).2 = some e) :
    (parseBody src frac radix).1 = 0 ∧ e ≠ ParseError.unsupportedRadix ∧
      e ≠ ParseError.emptyInput := by
  unfold parseBody at h ⊢
  cases hl : parseLoop frac radix src 0 ⟨Step.stepSign, 1, 0, 0⟩ with
  | error e1 =>
    obtain ⟨n, e1⟩ := e1
    simp only [hl, Option.some.injEq] at h ⊢
    subst h
    exact parseLoop_error hl
  | ok st =>
    simp only [hl] at h ⊢
    cases hp : padLoop radix st.sign (frac - st.expDigs) st.num with
    | error e1 =>
      obtain ⟨n, e1⟩ := e1
      simp only [hp, Option.some.injEq] at h ⊢
      subst h
      exact padLoop_error hp
    | ok v =>
      simp only [hp] at h ⊢
      by_cases h3 : st.step ≠ Step.stepMant ∧ st.step ≠ Step.stepExp
      · rw [if_pos h3] at h ⊢
        simp only [Option.some.injEq] at h
        subst h
        simp
      · rw [if_neg h3] at h
        cases h

theorem Parse_error_zero (src : List Nat) (frac radix : Nat)
    (h : (Parse src frac radix).2 ≠ none) : (Parse src frac radix).1 = 0 := by
  by_cases hsrc : src = []
  · subst hsrc; rw [Parse_empty]
  by_cases hr : radix < 2 ∨ radix > 36
  · rw [Parse_bad_radix hsrc frac hr]
  · rw [Parse_valid hsrc frac (by omega) (by omega)] at h ⊢
    obtain ⟨e, he⟩ := Option.ne_none_iff_exists'.mp h
    exact (parseBody_error he).1

theorem Parse_unsupportedRadix_iff {src : List Nat} (hsrc : src ≠ []) (frac radix : Nat) :
    (Parse src frac radix).2 = some ParseError.unsupportedRadix ↔ (radix < 2 ∨ radix > 36) := by
  constructor
  · intro h
    by_contra hr
    rw [Parse_valid hsrc frac (by omega) (by omega)] at h
    exact (parseBody_error h).2.1 rfl
  · intro hr
    rw [Parse_bad_radix hsrc frac hr]

theorem Parse_ok_inv {src : List Nat} {frac radix : Nat} {v : Int}
    (h : Parse src frac radix = (v, none)) :
    src ≠ [] ∧ 2 ≤ radix ∧ radix ≤ 36 ∧
      ∃ st, parseLoop frac radix src 0 ⟨Step.stepSign, 1, 0, 0⟩ = .ok st ∧
        padLoop radix st.sign (frac - st.expDigs) st.num = .ok v ∧
        (st.step = Step.stepMant ∨ st.step = Step.stepExp) := by
  have hsrc : src ≠ [] := by
    rintro rfl
    rw [Parse_empty] at h
    cases h
  have hr : ¬ (radix < 2 ∨ radix > 36) := by
    intro hr
    rw [Parse_bad_radix hsrc frac hr] at h
    cases h
  refine ⟨hsrc, by omega, by omega, ?_⟩
  rw [Parse_valid hsrc frac (by omega) (by omega)] at h
  unfold parseBody at h
  cases hl : parseLoop frac radix src 0 ⟨Step.stepSign, 1, 0, 0⟩ with
  | error e1 =>
    obtain ⟨n, e1⟩ := e1
    rw [hl] at h
    cases h
  | ok st =>
    simp only [hl] at h
    cases hp : padLoop radix st.sign (frac - st.expDigs) st.num with
    | error e1 =>
      obtain ⟨n, e1⟩ := e1
      rw [hp] at h
      cases h
    | ok v1 =>
      simp only [hp] at h
      by_cases h3 : st.step ≠ Step.stepMant ∧ st.step ≠ Step.stepExp
      · rw [if_pos h3] at h
        cases h
      · rw [if_neg h3] at h
        simp only [Prod.mk.injEq, and_true] at h
        subst h
        refine ⟨st, rfl, hp, ?_⟩
        by_contra h4
        exact h3 ⟨fun x => h4 (Or.inl x), fun x => h4 (Or.inr x)⟩

theorem digitStep_ok {frac radix ind digit : Nat} {step : Step} {st st1 : ParseState}
    (h : digitStep frac radix ind digit step st = .ok st1) :
    st1.step = step ∧ st1.sign = st.sign ∧
      st1.expDigs = (if step = Step.stepExp then st.expDigs + 1 else st.expDigs) := by
  unfold digitStep at h
  rcases hinc : inc st.num radix st.sign digit with ⟨n1, _ | e1⟩
  · simp only [hinc] at h
    split_ifs at h with h1 h2 h3 h4 <;> cases h <;> simp_all
  · simp only [hinc] at h
    split_ifs at h with h1 h2 h3 h4 <;> cases h <;> simp_all

theorem parseChar_ok_post {frac radix ind c : Nat} {st st1 : ParseState}
    (hs : PostPoint st.step) (h : parseChar frac radix ind c st = .ok st1) :
    st1.step = Step.stepExp ∧ st1.expDigs = st.expDigs + 1 ∧ st1.sign = st.sign := by
  rw [parseChar_eq] at h
  have hadv : advance st.step = Step.stepExp := by
    rcases hs with hs | hs <;> rw [hs] <;> rfl
  have n1 : st.step ≠ Step.stepSign := by
    rcases hs with hs | hs <;> rw [hs] <;> simp
  have n2 : st.step ≠ Step.stepMant := by
    rcases hs with hs | hs <;> rw [hs] <;> simp
  simp only [n1, n2, false_and, if_false, hadv] at h
  obtain ⟨e1, e2, e3⟩ := digitStep_ok h
  exact ⟨e1, by simpa using e3, e2⟩

theorem parseChar_ok_point {frac radix ind : Nat} {st st1 : ParseState}
    (h : parseChar frac radix ind 46 st = .ok st1) :
    st.step = Step.stepMant ∧ st1 = ⟨Step.stepExpStart, st.sign, st.expDigs, st.num⟩ := by
  rw [parseChar_eq] at h
  by_cases hm : st.step = Step.stepMant
  · simp only [hm, reduceCtorEq, false_and, if_false, true_and, if_true] at h
    cases h
    exact ⟨hm, rfl⟩
  · simp only [hm, false_and, if_false, and_false, Nat.reduceEqDiff] at h
    unfold digitStep at h
    rw [if_pos (Or.inl (by decide))] at h
    cases h

theorem parseChar_ok_pre {frac radix ind c : Nat} {st st1 : ParseState}
    (hs : ¬ PostPoint st.step) (hc : c ≠ 46) (h : parseChar frac radix ind c st = .ok st1) :
    ¬ PostPoint st1.step ∧ st1.expDigs = st.expDigs := by
  rw [parseChar_eq] at h
  split_ifs at h with h1 h2 h3
  · cases h; simp [PostPoint]
  · cases h; simp [PostPoint]
  · exact absurd h3.2 hc
  · obtain ⟨e1, -, e3⟩ := digitStep_ok h
    have hadv : advance st.step = Step.stepMant := by
      unfold PostPoint at hs
      cases hst : st.step <;> simp_all [advance]
    rw [hadv] at e1 e3
    simp only [reduceCtorEq, if_false] at e3
    exact ⟨by rw [e1]; simp [PostPoint], e3⟩

theorem parseLoop_ok_cons {frac radix c ind : Nat} {cs : List Nat} {st st2 : ParseState}
    (h : parseLoop frac radix (c :: cs) ind st = .ok st2) :
    ∃ st1, parseChar frac radix ind c st = .ok st1 ∧
      parseLoop frac radix cs (ind + 1) st1 = .ok st2 := by
  rw [parseLoop] at h
  cases hc : parseChar frac radix ind c st with
  | error e => rw [hc] at h; cases h
  | ok st1 => rw [hc] at h; exact ⟨st1, rfl, h⟩

theorem parseLoop_post_count {frac radix : Nat} {cs : List Nat} {ind : Nat} (st : ParseState)
    {st2 : ParseState}
    (hs : PostPoint st.step) (h : parseLoop frac radix cs ind st = .ok st2) :
    PostPoint st2.step ∧ st2.expDigs = st.expDigs + cs.length ∧
      (cs ≠ [] → st2.step = Step.stepExp) := by
  induction cs generalizing ind st with
  | nil =>
    simp only [parseLoop, Except.ok.injEq] at h
    subst h
    exact ⟨hs, rfl, fun h => absurd rfl h⟩
  | cons c cs ih =>
    obtain ⟨st1, h1, h2⟩ := parseLoop_ok_cons h
    obtain ⟨e1, e2, -⟩ := parseChar_ok_post hs h1
    obtain ⟨i1, i2, i3⟩ := ih st1 (Or.inr e1) h2
    refine ⟨i1, by rw [i2, e2, List.length_cons]; omega, fun _ => ?_⟩
    by_cases hcs : cs = []
    · subst hcs
      simp only [parseLoop, Except.ok.injEq] at h2
      rw [← h2]; exact e1
    · exact i3 hcs

theorem parseLoop_pre {frac radix : Nat} {cs : List Nat} {ind : Nat} {st st2 : ParseState}
    (hs : ¬ PostPoint st.step) (hc : 46 ∉ cs) (h : parseLoop frac radix cs ind st = .ok st2) :
    ¬ PostPoint st2.step ∧ st2.expDigs = st.expDigs := by
  induction cs generalizing ind st with
  | nil =>
    simp only [parseLoop, Except.ok.injEq] at h
    subst h
    exact ⟨hs, rfl⟩
  | cons c cs ih =>
    obtain ⟨st1, h1, h2⟩ := parseLoop_ok_cons h
    have hc1 : c ≠ 46 := fun e => hc (by rw [e]; exact List.mem_cons_self _ _)
    have hc2 : 46 ∉ cs := fun e => hc (List.mem_cons_of_mem _ e)
    obtain ⟨e1, e2⟩ := parseChar_ok_pre hs hc1 h1
    obtain ⟨i1, i2⟩ := ih e1 hc2 h2
    exact ⟨i1, by rw [i2, e2]⟩

theorem parseLoop_point_post {frac radix : Nat} {cs : List Nat} {ind : Nat} {st st2 : ParseState}
    (hc : 46 ∈ cs ∨ PostPoint st.step) (h : parseLoop frac radix cs ind st = .ok st2) :
    PostPoint st2.step := by
  induction cs generalizing ind st with
  | nil =>
    simp only [parseLoop, Except.ok.injEq] at h
    subst h
    rcases hc with hc | hc
    · simp at hc
    · exact hc
  | cons c cs ih =>
    obtain ⟨st1, h1, h2⟩ := parseLoop_ok_cons h
    by_cases hs : PostPoint st.step
    · exact ih (Or.inr (Or.inr (parseChar_ok_post hs h1).1)) h2
    · rcases hc with hc | hc
      · rcases List.mem_cons.mp hc with e | e
        · subst e
          obtain ⟨-, e2⟩ := parseChar_ok_point h1
          exact ih (Or.inr (by rw [e2]; exact Or.inl rfl)) h2
        · exact ih (Or.inl e) h2
      · exact absurd hc hs

theorem inc_zero_zero (radix : Nat) (sign : Int) : inc 0 radix sign 0 = (0, none) := by
  unfold inc
  have : wrap64 0 = 0 := by decide
  simp [this]

theorem padLoop_succ_ok {radix : Nat} {sign : Int} {k : Nat} {num v : Int}
    (h : padLoop radix sign (k + 1) num = .ok v) :
    ∃ n1, inc num radix sign 0 = (n1, none) ∧ padLoop radix sign k n1 = .ok v := by
  rw [padLoop] at h
  rcases hinc : inc num radix sign 0 with ⟨n1, _ | e1⟩
  · rw [hinc] at h
    exact ⟨n1, rfl, h⟩
  · rw [hinc] at h
    cases h

theorem parse_append_zero {s : List Nat} {frac radix : Nat} {v : Int} (hpt : 46 ∈ s)
    (h : Parse s frac radix = (v, none)) : Parse (s ++ [48]) frac radix = (v, none) := by
  obtain ⟨-, hr, hr2, st, hl, hp, hstep⟩ := Parse_ok_inv h
  have hexp : st.step = Step.stepExp := by
    rcases parseLoop_point_post (Or.inl hpt) hl with h1 | h1
    · rcases hstep with h2 | h2 <;> rw [h1] at h2 <;> cases h2
    · exact h1
  have hloop : parseLoop frac radix (s ++ [48]) 0 ⟨Step.stepSign, 1, 0, 0⟩ =
      match parseChar frac radix (0 + s.length) 48 st with
      | .error e => .error e
      | .ok st1 => .ok st1 := by
    rw [parseLoop_append, hl]
    simp only [parseLoop]
  have hchar : parseChar frac radix (0 + s.length) 48 st =
      digitStep frac radix (0 + s.length) 0 Step.stepExp st := by
    rw [parseChar_eq]
    simp only [hexp, reduceCtorEq, false_and, if_false, advance]
    rw [show toDigit 48 = 0 by decide]
  have hd1 : ¬ ((0 : Nat) = unDigit ∨ (0 : Nat) ≥ radix) := by
    unfold unDigit; omega
  have hne : s ++ [48] ≠ [] := by simp
  rw [hchar] at hloop
  unfold digitStep at hloop
  rw [if_neg hd1] at hloop
  by_cases hb : st.expDigs + 1 > frac
  · -- the added zero lies beyond the budget and is skipped
    simp only [hb, and_self, if_true] at hloop
    refine Parse_of_loop hne hr hr2 _ hloop ?_ (Or.inr rfl)
    have e1 : frac - (st.expDigs + 1) = 0 := by omega
    have e2 : frac - st.expDigs = 0 := by omega
    rw [e2] at hp
    simpa [e1] using hp
  · -- the added zero takes the place of the first padding step
    have e2 : frac - st.expDigs = (frac - (st.expDigs + 1)) + 1 := by omega
    rw [e2] at hp
    obtain ⟨n1, hinc, hpad⟩ := padLoop_succ_ok hp
    simp only [hb, and_false, if_false, if_true] at hloop
    by_cases hz : st.num = 0
    · rw [hz, inc_zero_zero] at hinc
      simp only [Prod.mk.injEq, and_true] at hinc
      subst hinc
      have hw : wrap64 (st.sign * wrap64 ((0 : Nat) : Int)) = 0 := by
        have : wrap64 0 = 0 := by decide
        simp [this]
      rw [if_pos hz, hw] at hloop
      exact Parse_of_loop hne hr hr2 _ hloop hpad (Or.inr rfl)
    · rw [if_neg hz, hinc] at hloop
      exact Parse_of_loop hne hr hr2 _ hloop hpad (Or.inr rfl)

theorem parseLoop_excess (frac radix : Nat) (a f rest : List Nat) (c : Nat) (ha : 46 ∉ a)
    (hf : frac ≤ f.length) (hc : toDigit c ≠ 0) :
    ∃ e, parseLoop frac radix (a ++ 46 :: f ++ c :: rest) 0 ⟨Step.stepSign, 1, 0, 0⟩ =
        .error (0, e) ∧
      ((∃ st, parseLoop frac radix (a ++ 46 :: f) 0 ⟨Step.stepSign, 1, 0, 0⟩ = .ok st) →
        toDigit c < radix → radix ≤ 36 → e = ParseError.precisionExceeded) := by
  rw [parseLoop_append]
  cases hl : parseLoop frac radix (a ++ 46 :: f) 0 ⟨Step.stepSign, 1, 0, 0⟩ with
  | error e =>
    obtain ⟨n, e⟩ := e
    obtain ⟨hn, -, -⟩ := parseLoop_error hl
    subst hn
    refine ⟨e, rfl, ?_⟩
    rintro ⟨st, hst⟩
    cases hst
  | ok st =>
    -- the scan reaches `c` after the point and at least `frac` fractional digits
    have hstate : PostPoint st.step ∧ frac ≤ st.expDigs := by
      rw [parseLoop_append] at hl
      cases hla : parseLoop frac radix a 0 ⟨Step.stepSign, 1, 0, 0⟩ with
      | error e => rw [hla] at hl; cases hl
      | ok sta =>
        rw [hla] at hl
        simp only at hl
        obtain ⟨p1, p2⟩ := parseLoop_pre (by simp [PostPoint]) ha hla
        obtain ⟨stp, q1, q2⟩ := parseLoop_ok_cons hl
        obtain ⟨-, q3⟩ := parseChar_ok_point q1
        obtain ⟨r1, r2, -⟩ := parseLoop_post_count stp (by rw [q3]; exact Or.inl rfl) q2
        refine ⟨r1, ?_⟩
        rw [r2, q3]
        simp only at p2 ⊢
        omega
    obtain ⟨hpost, hcount⟩ := hstate
    have hadv : advance st.step = Step.stepExp := by
      rcases hpost with hs | hs <;> rw [hs] <;> rfl
    have n1 : st.step ≠ Step.stepSign := by
      rcases hpost with hs | hs <;> rw [hs] <;> simp
    have n2 : st.step ≠ Step.stepMant := by
      rcases hpost with hs | hs <;> rw [hs] <;> simp
    simp only
    rw [parseLoop, parseChar_eq]
    simp only [n1, n2, false_and, if_false, hadv]
    unfold digitStep
    by_cases hv : toDigit c = unDigit ∨ toDigit c ≥ radix
    · rw [if_pos hv]
      refine ⟨_, rfl, ?_⟩
      intro _ hlt _
      rcases hv with hv | hv
      · unfold unDigit at hv; omega
      · omega
    · rw [if_neg hv, if_pos ⟨rfl, by omega⟩, if_neg hc]
      exact ⟨_, rfl, fun _ _ _ => rfl⟩

theorem parse_excess {frac radix : Nat} (hr : 2 ≤ radix) (hr2 : radix ≤ 36) (a f rest : List Nat)
    (c : Nat) (ha : 46 ∉ a) (hf : frac ≤ f.length) (hc : toDigit c ≠ 0) :
    ∃ e, Parse (a ++ 46 :: f ++ c :: rest) frac radix = (0, some e) ∧
      ((∃ st, parseLoop frac radix (a ++ 46 :: f) 0 ⟨Step.stepSign, 1, 0, 0⟩ = .ok st) →
        toDigit c < radix → e = ParseError.precisionExceeded) := by
  obtain ⟨e, h1, h2⟩ := parseLoop_excess frac radix a f rest c ha hf hc
  refine ⟨e, ?_, fun hst hlt => h2 hst hlt hr2⟩
  rw [Parse_valid (by simp) frac hr hr2]
  unfold parseBody
  rw [h1]

theorem Append_bad_radix (buf : List Nat) (num : Int) (frac : Nat) {radix : Nat}
    (hr : radix < 2 ∨ radix > 36) :
    Append buf num frac radix = some (buf, some FormatError.unsupportedRadix) := by
  unfold Append
  rw [if_pos (by simp [radixMin, radixMax, digits]; omega)]

theorem Append_bad_frac (buf : List Nat) (num : Int) {frac radix : Nat} (hr : 2 ≤ radix)
    (hr2 : radix ≤ 36) (hf : frac > 64) :
    Append buf num frac radix = some (buf, some FormatError.precisionLimitExceeded) := by
  unfold Append
  rw [if_neg (by simp [radixMin, radixMax, digits]; omega), if_pos (by simpa [bits] using hf)]

theorem Parse_unexpectedEnd {src : List Nat} {frac radix : Nat} (hsrc : src ≠ []) (hr : 2 ≤ radix)
    (hr2 : radix ≤ 36) (st : ParseState) {v : Int}
    (hloop : parseLoop frac radix src 0 ⟨Step.stepSign, 1, 0, 0⟩ = .ok st)
    (hpad : padLoop radix st.sign (frac - st.expDigs) st.num = .ok v)
    (hstep : st.step ≠ Step.stepMant ∧ st.step ≠ Step.stepExp) :
    Parse src frac radix = (0, some ParseError.unexpectedEnd) := by
  rw [Parse_valid hsrc frac hr hr2]
  unfold parseBody
  simp only [hloop, hpad]
  rw [if_pos hstep]

theorem padLoop_zero (radix : Nat) (sign : Int) (k : Nat) : padLoop radix sign k 0 = .ok 0 := by
  induction k with
  | zero => rfl
  | succ k ih => rw [padLoop, inc_zero_zero]; exact ih

theorem parse_sign_only (frac : Nat) {radix : Nat} (hr : 2 ≤ radix) (hr2 : radix ≤ 36) :
    Parse [43] frac radix = (0, some ParseError.unexpectedEnd) ∧
      Parse [45] frac radix = (0, some ParseError.unexpectedEnd) := by
  constructor
  · refine Parse_unexpectedEnd (by simp) hr hr2 ⟨Step.stepMantStart, 1, 0, 0⟩ ?_
      (padLoop_zero _ _ _) (by simp)
    rw [parseLoop_cons_ok _ (parseChar_plus frac radix 0 1 0 0)]
    rfl
  · refine Parse_unexpectedEnd (by simp) hr hr2 ⟨Step.stepMantStart, -1, 0, 0⟩ ?_
      (padLoop_zero _ _ _) (by simp)
    rw [parseLoop_cons_ok _ (parseChar_minus frac radix 0 1 0 0)]
    rfl

theorem parse_trailing_point {radix : Nat} (frac : Nat) (sg m : List Nat) (hr : 2 ≤ radix)
    (hr2 : radix ≤ 36) (hsg : sg = [] ∨ sg = [43] ∨ sg = [45]) (hm : m ≠ [])
    (hmd : ∀ c ∈ m, toDigit c < radix) (hV : IsInt64 (scaledValue radix frac sg m [])) :
    Parse (sg ++ m ++ [46]) frac radix = (0, some ParseError.unexpectedEnd) := by
  have hs := signValue_isSign sg
  have hr1 : 1 ≤ radix := by omega
  unfold scaledValue at hV
  simp only [List.take_nil, List.map_nil, List.append_nil, List.length_nil, Nat.sub_zero] at hV
  rw [digitsValue_eq_accum, accum_append] at hV
  have hVm : IsInt64 (signValue sg * (accum radix 0 (m.map toDigit) : Int)) :=
    isInt64_mono hs (accum_ge hr1 _ _) hV
  obtain ⟨step0, hadv, hsign⟩ := parseLoop_sign frac radix hsg (m ++ [46])
  have hmant := parseLoop_digits frac hr1 hr2 hs m [46] sg.length step0 0 0 hmd
    (by rw [hadv]; intro h; cases h) hVm
  rw [hadv, if_neg hm] at hmant
  simp only [reduceCtorEq, if_false] at hmant
  rw [parseLoop_cons_ok _ (parseChar_point frac radix _ _ _ _)] at hmant
  have hloop : parseLoop frac radix (sg ++ m ++ [46]) 0 ⟨Step.stepSign, 1, 0, 0⟩ =
      .ok ⟨Step.stepExpStart, signValue sg, 0,
        signValue sg * (accum radix 0 (m.map toDigit) : Int)⟩ := by
    rw [List.append_assoc, hsign, hmant]
    rfl
  exact Parse_unexpectedEnd (by simp) hr hr2 _ hloop (padLoop_exact hr1 hr2 hs _ _ hV) (by simp)

theorem parse_ends_with_point_fails (pre : List Nat) (frac radix : Nat) :
    (Parse (pre ++ [46]) frac radix).2 ≠ none := by
  intro hnone
  have hp : Parse (pre ++ [46]) frac radix = ((Parse (pre ++ [46]) frac radix).1, none) := by
    rw [← hnone]
  obtain ⟨-, -, -, st, hl, -, hstep⟩ := Parse_ok_inv hp
  rw [parseLoop_append] at hl
  cases hpre : parseLoop frac radix pre 0 ⟨Step.stepSign, 1, 0, 0⟩ with
  | error e => rw [hpre] at hl; cases hl
  | ok st0 =>
    rw [hpre] at hl
    simp only at hl
    obtain ⟨st1, h1, h2⟩ := parseLoop_ok_cons hl
    obtain ⟨-, e1⟩ := parseChar_ok_point h1
    simp only [parseLoop, Except.ok.injEq] at h2
    rw [← h2, e1] at hstep
    rcases hstep with h | h <;> cases h

theorem parse_bad_first {radix : Nat} (frac : Nat) (sg : List Nat) (c : Nat) (rest : List Nat)
    (hr : 2 ≤ radix) (hr2 : radix ≤ 36) (hsg : sg = [] ∨ sg = [43] ∨ sg = [45])
    (hc0 : sg = [] → c ≠ 43 ∧ c ≠ 45) (hc : ¬ toDigit c < radix) :
    Parse (sg ++ c :: rest) frac radix = (0, some (ParseError.invalidCharacter sg.length)) := by
  have hbad : toDigit c = unDigit ∨ toDigit c ≥ radix := Or.inr (by omega)
  have hdig : ∀ (ind : Nat) (step : Step) (st : ParseState),
      digitStep frac radix ind (toDigit c) step st =
        .error (0, ParseError.invalidCharacter ind) := by
    intro ind step st
    unfold digitStep
    rw [if_pos hbad]
  rw [Parse_valid (by simp) frac hr hr2]
  unfold parseBody
  rcases hsg with rfl | rfl | rfl
  · obtain ⟨n1, n2⟩ := hc0 rfl
    simp only [List.nil_append, parseLoop, parseChar_eq, n1, n2, and_false, if_false,
      reduceCtorEq, false_and, hdig, List.length_nil]
  · rw [List.singleton_append, parseLoop_cons_ok _ (parseChar_plus frac radix 0 1 0 0)]
    simp only [parseLoop, parseChar_eq, reduceCtorEq, false_and, if_false, hdig,
      List.length_singleton, Nat.zero_add]
  · rw [List.singleton_append, parseLoop_cons_ok _ (parseChar_minus frac radix 0 1 0 0)]
    simp only [parseLoop, parseChar_eq, reduceCtorEq, false_and, if_false, hdig,
      List.length_singleton, Nat.zero_add]

theorem lower_ge_of_ge {c : Nat} (h : 128 ≤ c) : 128 ≤ lower c := by
  unfold lower
  have hr : c % 128 < 2 ^ 7 := Nat.mod_lt _ (by norm_num)
  have hc : c = 2 ^ 7 * (c / 128) + c % 128 := by
    have := Nat.div_add_mod c 128
    omega
  have h1 : c = 2 ^ 7 * (c / 128) ||| c % 128 := by
    rw [← Nat.mul_add_lt_is_or hr]; exact hc
  have h2 : (c % 128 ||| (97 - 65)) < 2 ^ 7 := Nat.or_lt_two_pow hr (by norm_num)
  have h3 : c ||| (97 - 65) = 2 ^ 7 * (c / 128) + (c % 128 ||| (97 - 65)) := by
    rw [Nat.mul_add_lt_is_or h2]
    conv_lhs => rw [h1]
    rw [Nat.or_assoc]
  rw [h3]
  have : 1 ≤ c / 128 := by omega
  omega

theorem toDigit_cases (c : Nat) :
    (48 ≤ c ∧ c ≤ 57 ∧ toDigit c = c - 48) ∨
      (97 ≤ c ∧ c ≤ 122 ∧ toDigit c = c - 97 + 10) ∨
      (65 ≤ c ∧ c ≤ 90 ∧ toDigit c = c - 65 + 10) ∨ toDigit c = 255 := by
  rcases Nat.lt_or_ge c 128 with h | h
  · interval_cases c <;> decide
  · have := lower_ge_of_ge h
    right; right; right
    unfold toDigit unDigit
    rw [if_neg (by omega)]
    simp only
    rw [if_neg (by omega)]

theorem isDigitOf_of_toDigit {radix c : Nat} (hr2 : radix ≤ 36) (h : toDigit c < radix) :
    IsDigitOf radix c := by
  unfold IsDigitOf
  rcases toDigit_cases c with ⟨h1, h2, h3⟩ | ⟨h1, h2, h3⟩ | ⟨h1, h2, h3⟩ | h3
  · exact Or.inl ⟨h1, h2, by omega⟩
  · exact Or.inr (Or.inl ⟨h1, h2, by omega⟩)
  · exact Or.inr (Or.inr ⟨h1, h2, by omega⟩)
  · omega

theorem toDigit_of_isDigitOf {radix c : Nat} (h : IsDigitOf radix c) : toDigit c < radix := by
  unfold IsDigitOf at h
  rcases toDigit_cases c with ⟨h1, h2, h3⟩ | ⟨h1, h2, h3⟩ | ⟨h1, h2, h3⟩ | h3
  · omega
  · omega
  · omega
  · have hc : c < 128 := by omega
    exfalso
    revert h3
    interval_cases c <;> first | omega | decide

theorem digitStep_ok_valid {frac radix ind digit : Nat} {step : Step} {st st1 : ParseState}
    (h : digitStep frac radix ind digit step st = .ok st1) : digit < radix := by
  unfold digitStep at h
  by_cases hv : digit = unDigit ∨ digit ≥ radix
  · rw [if_pos hv] at h; cases h
  · omega

theorem shape_step {frac radix ind c : Nat} {st st1 : ParseState} {pre : List Nat}
    (hr2 : radix ≤ 36) (hs : Shape radix st.step pre)
    (h : parseChar frac radix ind c st = .ok st1) : Shape radix st1.step (pre ++ [c]) := by
  rw [parseChar_eq] at h
  split_ifs at h with h1 h2 h3
  · cases h
    rw [h1.1] at hs
    simp only [Shape] at hs ⊢
    rw [hs, h1.2]; exact Or.inl rfl
  · cases h
    rw [h2.1] at hs
    simp only [Shape] at hs ⊢
    rw [hs, h2.2]; exact Or.inr rfl
  · cases h
    rw [h3.1] at hs
    simp only [Shape] at hs ⊢
    obtain ⟨sg, m, e, p1, p2, p3⟩ := hs
    exact ⟨sg, m, by rw [e, h3.2], p1, p2, p3⟩
  · have hd : IsDigitOf radix c := isDigitOf_of_toDigit hr2 (digitStep_ok_valid h)
    obtain ⟨e1, -, -⟩ := digitStep_ok h
    rw [e1]
    cases hst : st.step <;> rw [hst] at hs <;> simp only [Shape, advance] at hs ⊢
    · exact ⟨[], [c], by rw [hs], Or.inl rfl, by simp, by simpa using hd⟩
    · refine ⟨pre, [c], rfl, ?_, by simp, by simpa using hd⟩
      rcases hs with e | e
      · exact Or.inr (Or.inl e)
      · exact Or.inr (Or.inr e)
    · obtain ⟨sg, m, e, p1, p2, p3⟩ := hs
      refine ⟨sg, m ++ [c], by rw [e, List.append_assoc], p1, by simp, ?_⟩
      intro x hx
      rcases List.mem_append.mp hx with hx | hx
      · exact p3 x hx
      · rw [List.mem_singleton.mp hx]; exact hd
    · obtain ⟨sg, m, e, p1, p2, p3⟩ := hs
      exact ⟨sg, m, [c], by rw [e]; simp, p1, p2, p3, by simp, by simpa using hd⟩
    · obtain ⟨sg, m, f, e, p1, p2, p3, p4, p5⟩ := hs
      refine ⟨sg, m, f ++ [c], by rw [e]; simp, p1, p2, p3, by simp, ?_⟩
      intro x hx
      rcases List.mem_append.mp hx with hx | hx
      · exact p5 x hx
      · rw [List.mem_singleton.mp hx]; exact hd

theorem shape_loop {frac radix : Nat} (hr2 : radix ≤ 36) {cs : List Nat} {ind : Nat}
    {st st2 : ParseState} {pre : List Nat} (hs : Shape radix st.step pre)
    (h : parseLoop frac radix cs ind st = .ok st2) : Shape radix st2.step (pre ++ cs) := by
  induction cs generalizing ind st pre with
  | nil =>
    simp only [parseLoop, Except.ok.injEq] at h
    subst h
    simpa using hs
  | cons c cs ih =>
    obtain ⟨st1, h1, h2⟩ := parseLoop_ok_cons h
    have := ih (shape_step hr2 hs h1) h2
    simpa using this

theorem parse_grammar {src : List Nat} {frac radix : Nat} {v : Int}
    (h : Parse src frac radix = (v, none)) :
    ∃ sg m f, src = fracInput sg m f ∧ IsSignPrefix sg ∧ m ≠ [] ∧
      (∀ c ∈ m, IsDigitOf radix c) ∧ (∀ c ∈ f, IsDigitOf radix c) := by
  obtain ⟨-, -, hr2, st, hl, -, hstep⟩ := Parse_ok_inv h
  have h0 : Shape radix (ParseState.mk Step.stepSign 1 0 0).step [] := by simp [Shape]
  have hs : Shape radix st.step ([] ++ src) := shape_loop hr2 h0 hl
  rw [List.nil_append] at hs
  rcases hstep with e | e <;> rw [e] at hs <;> simp only [Shape] at hs
  · obtain ⟨sg, m, e, p1, p2, p3⟩ := hs
    exact ⟨sg, m, [], by rw [e]; simp [fracInput], p1, p2, p3, by simp⟩
  · obtain ⟨sg, m, f, e, p1, p2, p3, p4, p5⟩ := hs
    exact ⟨sg, m, f, by rw [e]; simp [fracInput, p4], p1, p2, p3, p5⟩

theorem swapCase_facts (c : Nat) :
    toDigit (swapCase c) = toDigit c ∧ (swapCase c = 43 ↔ c = 43) ∧
      (swapCase c = 45 ↔ c = 45) ∧ (swapCase c = 46 ↔ c = 46) := by
  rcases Nat.lt_or_ge c 128 with h | h
  · interval_cases c <;> decide
  · have e : swapCase c = c := by
      unfold swapCase
      rw [if_neg (by omega), if_neg (by omega)]
    rw [e]
    simp

theorem parseChar_caseVariant (frac radix ind : Nat) {a b : Nat} (h : CaseVariant a b)
    (st : ParseState) : parseChar frac radix ind b st = parseChar frac radix ind a st := by
  rcases h with rfl | rfl
  · rfl
  · obtain ⟨e1, e2, e3, e4⟩ := swapCase_facts a
    rw [parseChar_eq, parseChar_eq, e1]
    simp only [e2, e3, e4]

theorem parseLoop_caseVariant (frac radix : Nat) {src src1 : List Nat}
    (h : List.Forall₂ CaseVariant src src1) (ind : Nat) (st : ParseState) :
    parseLoop frac radix src1 ind st = parseLoop frac radix src ind st := by
  induction h generalizing ind st with
  | nil => rfl
  | cons hab _ ih =>
    rw [parseLoop, parseLoop, parseChar_caseVariant frac radix ind hab]
    cases parseChar frac radix ind _ st with
    | error e => rfl
    | ok st1 => exact ih (ind + 1) st1

theorem parse_caseVariant (frac radix : Nat) {src src1 : List Nat}
    (h : List.Forall₂ CaseVariant src src1) :
    Parse src1 frac radix = Parse src frac radix := by
  unfold Parse
  rw [parseLoop_caseVariant frac radix h, h.length_eq]

theorem digitChar_range {d : Nat} (h : d < 36) :
    ((48 ≤ digitChar d ∧ digitChar d ≤ 57) ∨ (97 ≤ digitChar d ∧ digitChar d ≤ 122)) ∧
      (digitChar d = 48 ↔ d = 0) ∧ digitChar d ∈ digits := by
  interval_cases d <;> decide

theorem mem_point_formatText (num : Int) (frac : Nat) {radix : Nat} (hr : 2 ≤ radix)
    (hr2 : radix ≤ 36) :
    46 ∈ formatText num frac radix ↔ num.natAbs % radix ^ frac ≠ 0 := by
  have hint : 46 ∉ (natRepr radix (num.natAbs / radix ^ frac)).map digitChar := by
    intro hmem
    obtain ⟨d, hd, e⟩ := List.mem_map.mp hmem
    have hlt := natRepr_lt hr _ d hd
    have := (digitChar_range (show d < 36 by omega)).1
    omega
  have hsign : 46 ∉ (if num < 0 then [45] else ([] : List Nat)) := by
    split <;> simp
  unfold formatText
  rw [List.mem_append, List.mem_append, fracOut_eq_spec hr]
  constructor
  · rintro (h | h | h)
    · exact absurd h hsign
    · exact absurd h hint
    · intro hz
      rw [if_neg (by simpa using hz)] at h
      simp at h
  · intro hz
    right; right
    rw [if_pos hz]
    exact List.mem_cons_self _ _

theorem natAbs_mod_ne_zero_iff (num : Int) (radix frac : Nat) :
    num.natAbs % radix ^ frac ≠ 0 ↔ ¬ ((radix : Int) ^ frac ∣ num) := by
  rw [show ((radix : Int) ^ frac) = ((radix ^ frac : Nat) : Int) by push_cast; rfl,
    Int.natCast_dvd, Nat.dvd_iff_mod_eq_zero]

theorem formatText_zero (frac : Nat) {radix : Nat} (hr : 2 ≤ radix) :
    formatText 0 frac radix = [48] := by
  unfold formatText
  rw [fracOut_eq_spec hr]
  simp [natRepr, digitChar, digits]

theorem natRepr_length_le {rad : Nat} (hr : 2 ≤ rad) (m n : Nat) (hm : n < rad ^ m)
    (h1 : 1 ≤ m) : (natRepr rad n).length ≤ m := by
  induction m generalizing n with
  | zero => omega
  | succ k ih =>
    by_cases hlt : n < rad
    · rw [natRepr_of_lt hlt]; simp
    · have hge : rad ≤ n := Nat.le_of_not_lt hlt
      have hk : 1 ≤ k := by
        rcases Nat.eq_zero_or_pos k with h | h
        · subst h; rw [zero_add, pow_one] at hm; omega
        · exact h
      have hq : n / rad < rad ^ k := by
        apply Nat.div_lt_of_lt_mul
        rw [← pow_succ']
        exact hm
      rw [natRepr_of_ge hr hge, List.length_append]
      have := ih (n / rad) hq hk
      simp only [List.length_singleton]
      omega

theorem intPart_lt {num : Int} (hnum : IsInt64 num) (frac : Nat) {radix : Nat} (hr : 2 ≤ radix) :
    num.natAbs / radix ^ frac < radix ^ (max 1 (64 - frac)) := by
  have hM := natAbs_lt_of_isInt64 hnum
  rcases Nat.lt_or_ge frac 64 with h | h
  · have e : max 1 (64 - frac) = 64 - frac := by omega
    rw [e]
    apply Nat.div_lt_of_lt_mul
    rw [← pow_add, show frac + (64 - frac) = 64 by omega]
    exact lt_of_lt_of_le hM (two_pow_le_radix_pow hr 64)
  · have e : max 1 (64 - frac) = 1 := by omega
    rw [e, pow_one]
    have h64 : radix ^ 64 ≤ radix ^ frac := Nat.pow_le_pow_right (by omega) h
    have : num.natAbs / radix ^ frac = 0 :=
      Nat.div_eq_of_lt (lt_of_lt_of_le (lt_of_lt_of_le hM (two_pow_le_radix_pow hr 64)) h64)
    omega

theorem formatText_length_le {num : Int} (hnum : IsInt64 num) {frac radix : Nat} (hf : frac ≤ 64)
    (hr : 2 ≤ radix) : (formatText num frac radix).length ≤ 67 := by
  have h1 := natRepr_length_le hr _ _ (intPart_lt hnum frac hr) (by omega)
  have h2 := fracOut_length_le radix frac num.natAbs
  have h3 : (if num < 0 then [45] else ([] : List Nat)).length ≤ 1 := by
    split <;> simp
  unfold formatText
  simp only [List.length_append, List.length_map]
  omega

theorem formatText_scale (v : Int) (frac : Nat) {radix : Nat} (hr : 2 ≤ radix) :
    formatText (v * (radix : Int)) (frac + 1) radix = formatText v frac radix := by
  have hpos : 0 < radix := by omega
  have habs : (v * (radix : Int)).natAbs = v.natAbs * radix := by
    rw [Int.natAbs_mul, Int.natAbs_ofNat]
  have hsign : (v * (radix : Int) < 0) ↔ v < 0 := by
    have hp : (0 : Int) < (radix : Int) := by exact_mod_cast hpos
    constructor
    · intro h
      by_contra hv
      have : 0 ≤ v * (radix : Int) := mul_nonneg (not_lt.mp hv) (le_of_lt hp)
      omega
    · intro h
      exact mul_neg_of_neg_of_pos h hp
  have hint : v.natAbs * radix / radix ^ (frac + 1) = v.natAbs / radix ^ frac := by
    rw [pow_succ, Nat.mul_div_mul_right _ _ hpos]
  have hfrac : fracOut radix (frac + 1) (v.natAbs * radix) = fracOut radix frac v.natAbs := by
    unfold fracOut
    simp only [lePad, Nat.mul_mod_left, Nat.mul_div_cancel _ hpos, List.dropWhile_cons,
      decide_True, if_true]
  unfold formatText
  rw [habs, hint, hfrac]
  simp only [hsign]

theorem natRepr_head (radix : Nat) {n : Nat} (hn : n ≠ 0) :
    (natRepr radix n).head? ≠ some 0 := by
  unfold natRepr
  rw [if_neg hn, List.head?_reverse,
    List.getLast?_eq_getLast _ (Nat.digits_ne_nil_iff_ne_zero.mpr hn)]
  intro h
  exact Nat.getLast_digit_ne_zero radix hn (Option.some.inj h)

theorem dropWhile_zero_head (l : List Nat) : (l.dropWhile (· = 0)).head? ≠ some 0 := by
  induction l with
  | nil => simp
  | cons x l ih =>
    by_cases hx : x = 0
    · simpa [List.dropWhile_cons, hx] using ih
    · simp [List.dropWhile_cons, hx]

theorem intText_canonical (num : Int) (frac : Nat) {radix : Nat} (hr : 2 ≤ radix)
    (hr2 : radix ≤ 36) :
    intText num frac radix ≠ [] ∧
      ((intText num frac radix).head? = some 48 → intText num frac radix = [48]) ∧
      ∀ c ∈ intText num frac radix, ∃ d, d < radix ∧ c = digitChar d := by
  unfold intText
  refine ⟨by simpa using natRepr_ne_nil _ _, ?_, ?_⟩
  · intro h
    by_cases hz : num.natAbs / radix ^ frac = 0
    · rw [hz]; simp [natRepr, digitChar, digits]
    · exfalso
      apply natRepr_head radix hz
      cases hl : natRepr radix (num.natAbs / radix ^ frac) with
      | nil => rw [hl] at h; simp at h
      | cons d ds =>
        rw [hl] at h
        simp only [List.map_cons, List.head?_cons, Option.some.injEq] at h
        have hd : d < radix := natRepr_lt hr _ d (by rw [hl]; exact List.mem_cons_self _ _)
        have := ((digitChar_range (show d < 36 by omega)).2.1).mp h
        simp [this]
  · intro c hc
    obtain ⟨d, hd, e⟩ := List.mem_map.mp hc
    exact ⟨d, natRepr_lt hr _ d hd, e.symm⟩

theorem fracDigitsText_canonical (num : Int) (frac : Nat) {radix : Nat} (hr : 2 ≤ radix)
    (hr2 : radix ≤ 36) :
    (fracDigitsText num frac radix).length ≤ frac ∧
      (fracDigitsText num frac radix).getLast? ≠ some 48 ∧
      ∀ c ∈ fracDigitsText num frac radix, ∃ d, d < radix ∧ c = digitChar d := by
  have hsub := List.dropWhile_sublist (fun x => decide (x = 0)) (l := lePad radix frac num.natAbs)
  have hlt : ∀ d ∈ (lePad radix frac num.natAbs).dropWhile (· = 0), d < radix :=
    fun d hd => lePad_lt (by omega) frac num.natAbs d (hsub.subset hd)
  unfold fracDigitsText
  refine ⟨?_, ?_, ?_⟩
  · simp only [List.length_map, List.length_reverse]
    have := hsub.length_le
    rwa [lePad_length] at this
  · have hh := dropWhile_zero_head (lePad radix frac num.natAbs)
    cases hl : (lePad radix frac num.natAbs).dropWhile (· = 0) with
    | nil => simp
    | cons d ds =>
      rw [hl] at hh hlt
      have hd : d < radix := hlt d (List.mem_cons_self _ _)
      have hne : d ≠ 0 := by simpa using hh
      have := (digitChar_range (show d < 36 by omega)).2.1
      rw [List.reverse_cons, List.map_append, List.map_cons, List.map_nil,
        List.getLast?_concat]
      intro h
      exact hne (this.mp (Option.some.inj h))
  · intro c hc
    obtain ⟨d, hd, e⟩ := List.mem_map.mp hc
    exact ⟨d, hlt d (List.mem_reverse.mp hd), e.symm⟩

theorem inc_ok_inv {prev : Int} {radix : Nat} {sign : Int} {digit : Nat} {n : Int}
    (h : inc prev radix sign digit = (n, none)) :
    ¬ (prev > 0 ∧ incNext prev radix sign digit < prev) ∧
      ¬ (prev < 0 ∧ incNext prev radix sign digit > prev) ∧
      n = incNext prev radix sign digit := by
  unfold inc at h
  simp only at h
  unfold incNext
  by_cases c1 : prev > 0 ∧
      wrap64 (wrap64 (prev * wrap64 (radix : Int)) + wrap64 (sign * wrap64 (digit : Int))) < prev
  · rw [if_pos c1] at h; cases h
  · rw [if_neg c1] at h
    by_cases c2 : prev < 0 ∧
        wrap64 (wrap64 (prev * wrap64 (radix : Int)) + wrap64 (sign * wrap64 (digit : Int))) > prev
    · rw [if_pos c2] at h; cases h
    · rw [if_neg c2] at h
      simp only [Prod.mk.injEq, and_true] at h
      exact ⟨c1, c2, h.symm⟩

theorem inc_of_checks {prev : Int} {radix : Nat} {sign : Int} {digit : Nat}
    (c1 : ¬ (prev > 0 ∧ incNext prev radix sign digit < prev))
    (c2 : ¬ (prev < 0 ∧ incNext prev radix sign digit > prev)) :
    inc prev radix sign digit = (incNext prev radix sign digit, none) := by
  unfold incNext at c1 c2 ⊢
  unfold inc
  simp only
  rw [if_neg c1, if_neg c2]

theorem incNext_neg {radix : Nat} (hr2 : radix ≤ 36) {prev : Int} {d : Nat} (hd : d ≤ 255)
    (h : incNext prev radix 1 d ≠ -(2 ^ 63)) :
    incNext (-1 * prev) radix (-1) d = -1 * incNext prev radix 1 d := by
  have e1 : wrap64 (radix : Int) = radix := wrap64_of_isInt64 (by
    unfold IsInt64 minInt64 maxInt64; omega)
  have e2 : wrap64 (d : Int) = d := wrap64_of_isInt64 (by
    unfold IsInt64 minInt64 maxInt64; omega)
  unfold incNext at h ⊢
  rw [e1, e2] at h ⊢
  have hmul : -1 * prev * (radix : Int) = -(prev * (radix : Int)) := by ring
  rw [hmul]
  generalize prev * (radix : Int) = P at *
  unfold wrap64 at *
  omega

theorem inc_sim {radix : Nat} (hr2 : radix ≤ 36) {σ : Int} (hσ : IsSign σ)
    {prev n : Int} {d : Nat} (hd : d ≤ 255) (hp : 0 ≤ prev)
    (h : inc prev radix 1 d = (n, none)) :
    0 ≤ n ∧ inc (σ * prev) radix σ d = (σ * n, none) := by
  obtain ⟨c1, c2, hn⟩ := inc_ok_inv h
  have hnn : 0 ≤ n := by
    by_cases h0 : prev = 0
    · subst h0
      rw [hn]
      have e2 : wrap64 (d : Int) = d := wrap64_of_isInt64 (by
        unfold IsInt64 minInt64 maxInt64; omega)
      unfold incNext
      rw [e2]
      unfold wrap64
      omega
    · omega
  refine ⟨hnn, ?_⟩
  rcases hσ with rfl | rfl
  · rw [one_mul, one_mul]; exact h
  · have hne : incNext prev radix 1 d ≠ -(2 ^ 63) := by omega
    have e := incNext_neg hr2 hd hne
    rw [inc_of_checks (by rw [e]; omega) (by rw [e]; omega), e, hn]

theorem padLoop_sim {radix : Nat} (hr2 : radix ≤ 36) {σ : Int} (hσ : IsSign σ) (k : Nat)
    {num v : Int} (hp : 0 ≤ num) (h : padLoop radix 1 k num = .ok v) :
    padLoop radix σ k (σ * num) = .ok (σ * v) := by
  induction k generalizing num with
  | zero =>
    simp only [padLoop, Except.ok.injEq] at h ⊢
    rw [h]
  | succ k ih =>
    obtain ⟨n1, hinc, hpad⟩ := padLoop_succ_ok h
    obtain ⟨hn, hsim⟩ := inc_sim hr2 hσ (by omega) hp hinc
    rw [padLoop, hsim]
    exact ih hn hpad

theorem digitStep_sim {frac radix : Nat} (hr2 : radix ≤ 36) {σ : Int} (hσ : IsSign σ)
    (ind ind2 digit : Nat) (step s1 s2 : Step) (e : Nat) {num : Int} (hp : 0 ≤ num)
    {st1 : ParseState}
    (h : digitStep frac radix ind digit step ⟨s1, 1, e, num⟩ = .ok st1) :
    st1.step = step ∧ st1.sign = 1 ∧ 0 ≤ st1.num ∧
      digitStep frac radix ind2 digit step ⟨s2, σ, e, σ * num⟩ =
        .ok ⟨step, σ, st1.expDigs, σ * st1.num⟩ := by
  have hlt := digitStep_ok_valid h
  have hd : digit ≤ 255 := by omega
  have hv : ¬ (digit = unDigit ∨ digit ≥ radix) := by unfold unDigit; omega
  have e2 : wrap64 (digit : Int) = digit := wrap64_of_isInt64 (by
    unfold IsInt64 minInt64 maxInt64; omega)
  have e3 : wrap64 (σ * (digit : Int)) = σ * digit := wrap64_of_isInt64 (by
    unfold IsInt64 minInt64 maxInt64; rcases hσ with rfl | rfl <;> omega)
  unfold digitStep at h ⊢
  rw [if_neg hv] at h ⊢
  simp only at h ⊢
  by_cases hb : step = Step.stepExp ∧ e + 1 > frac
  · rw [if_pos hb] at h ⊢
    by_cases hz : digit = 0
    · rw [if_pos hz] at h ⊢
      cases h
      exact ⟨rfl, rfl, hp, rfl⟩
    · rw [if_neg hz] at h; cases h
  · rw [if_neg hb] at h ⊢
    by_cases hn : num = 0
    · subst hn
      rw [if_pos rfl] at h
      rw [if_pos (by simp)]
      cases h
      refine ⟨rfl, rfl, ?_, ?_⟩
      · simp only [one_mul, e2]; omega
      · simp only [one_mul, e2, e3]
    · have hn2 : ¬ (σ * num = 0) := by
        rcases hσ with rfl | rfl <;> omega
      rw [if_neg hn] at h
      rw [if_neg hn2]
      rcases hinc : inc num radix 1 digit with ⟨n1, _ | e1⟩
      · rw [hinc] at h
        cases h
        obtain ⟨g1, g2⟩ := inc_sim hr2 hσ hd hp hinc
        rw [g2]
        exact ⟨rfl, rfl, g1, rfl⟩
      · rw [hinc] at h; cases h

theorem parseChar_sim {frac radix : Nat} (hr2 : radix ≤ 36) {σ : Int} (hσ : IsSign σ)
    (ind ind2 c : Nat) {st st2 st1 : ParseState} (hrel : SignRel σ st st2)
    (hc : st.step = Step.stepSign → c ≠ 43 ∧ c ≠ 45)
    (h : parseChar frac radix ind c st = .ok st1) :
    st1.step ≠ Step.stepSign ∧
      ∃ st3, parseChar frac radix ind2 c st2 = .ok st3 ∧ SignRel σ st1 st3 ∧
        st3.step = st1.step := by
  obtain ⟨s1, sg1, e1, n1⟩ := st
  obtain ⟨s2, sg2, e2, n2⟩ := st2
  obtain ⟨r1, r2, r3, r4, r5, r6⟩ := hrel
  simp only at r1 r2 r3 r4 r5 r6 hc
  subst r1 r3 r4 r5
  rw [parseChar_eq] at h ⊢
  simp only at h ⊢
  have hadv : advance s2 = advance s1 := by
    rcases r6 with r | ⟨r, r'⟩
    · rw [r]
    · rw [r, r']; rfl
  have hm : s2 = Step.stepMant ↔ s1 = Step.stepMant := by
    rcases r6 with r | ⟨r, r'⟩
    · rw [r]
    · rw [r, r']; simp
  by_cases hs : s1 = Step.stepSign
  · obtain ⟨c1, c2⟩ := hc hs
    have hs2 : s2 ≠ Step.stepMant := by
      rcases r6 with r | ⟨r, r'⟩
      · rw [r, hs]; simp
      · rw [r']; simp
    simp only [c1, c2, and_false, if_false, hs, reduceCtorEq, false_and, hs2] at h ⊢
    rw [hs] at hadv
    rw [hadv]
    obtain ⟨g1, g2, g3, g4⟩ := digitStep_sim hr2 hσ ind ind2 (toDigit c) (advance Step.stepSign)
      Step.stepSign s2 e2 r2 h
    refine ⟨by rw [g1]; simp [advance], _, g4, ⟨g2, g3, rfl, rfl, rfl, Or.inl g1.symm⟩, g1.symm⟩
  · have hs2 : s2 ≠ Step.stepSign := by
      rcases r6 with r | ⟨r, r'⟩
      · rw [r]; exact hs
      · rw [r']; simp
    simp only [hs, hs2, false_and, if_false, hm] at h ⊢
    by_cases hpt : s1 = Step.stepMant ∧ c = 46
    · rw [if_pos hpt] at h ⊢
      cases h
      exact ⟨by simp, _, rfl, ⟨rfl, r2, rfl, rfl, rfl, Or.inl rfl⟩, rfl⟩
    · rw [if_neg hpt] at h ⊢
      rw [hadv]
      obtain ⟨g1, g2, g3, g4⟩ := digitStep_sim hr2 hσ ind ind2 (toDigit c) (advance s1)
        s1 s2 e2 r2 h
      refine ⟨?_, _, g4, ⟨g2, g3, rfl, rfl, rfl, Or.inl g1.symm⟩, g1.symm⟩
      rw [g1]
      cases s1 <;> simp [advance]

theorem parseLoop_sim {frac radix : Nat} (hr2 : radix ≤ 36) {σ : Int} (hσ : IsSign σ)
    (cs : List Nat) (ind ind2 : Nat) {st st2 st1 : ParseState} (hrel : SignRel σ st st2)
    (hc : st.step = Step.stepSign → ∀ c ∈ cs.head?, c ≠ 43 ∧ c ≠ 45)
    (h : parseLoop frac radix cs ind st = .ok st1) :
    ∃ st3, parseLoop frac radix cs ind2 st2 = .ok st3 ∧ SignRel σ st1 st3 := by
  induction cs generalizing ind ind2 st st2 with
  | nil =>
    simp only [parseLoop, Except.ok.injEq] at h ⊢
    subst h
    exact ⟨st2, rfl, hrel⟩
  | cons c cs ih =>
    obtain ⟨sta, h1, h2⟩ := parseLoop_ok_cons h
    obtain ⟨g1, st3, g2, g3, -⟩ := parseChar_sim hr2 hσ ind ind2 c hrel
      (fun hs => hc hs c (by simp)) h1
    obtain ⟨st4, g4, g5⟩ := ih (ind + 1) (ind2 + 1) g3 (fun hs => absurd hs g1) h2
    exact ⟨st4, by rw [parseLoop, g2]; exact g4, g5⟩

theorem parse_signed {frac radix : Nat} {σ : Int} (hσ : IsSign σ) (sc c : Nat)
    (rest : List Nat) (hsc : (sc = 43 ∧ σ = 1) ∨ (sc = 45 ∧ σ = -1))
    (hc : c ≠ 43 ∧ c ≠ 45) {v : Int} (h : Parse (c :: rest) frac radix = (v, none)) :
    Parse (sc :: c :: rest) frac radix = (σ * v, none) := by
  obtain ⟨-, hr, hr2, st, hl, hp, hstep⟩ := Parse_ok_inv h
  have hinit : parseLoop frac radix (sc :: c :: rest) 0 ⟨Step.stepSign, 1, 0, 0⟩ =
      parseLoop frac radix (c :: rest) 1 ⟨Step.stepMantStart, σ, 0, 0⟩ := by
    rcases hsc with ⟨rfl, rfl⟩ | ⟨rfl, rfl⟩
    · rw [parseLoop_cons_ok _ (parseChar_plus frac radix 0 1 0 0)]
    · rw [parseLoop_cons_ok _ (parseChar_minus frac radix 0 1 0 0)]
  have hrel : SignRel σ ⟨Step.stepSign, 1, 0, 0⟩ ⟨Step.stepMantStart, σ, 0, 0⟩ :=
    ⟨rfl, le_refl _, rfl, by simp, rfl, Or.inr ⟨rfl, rfl⟩⟩
  obtain ⟨st3, g1, g2⟩ := parseLoop_sim hr2 hσ (c :: rest) 0 1 hrel
    (fun _ x hx => by
      simp only [List.head?_cons, Option.mem_def, Option.some.injEq] at hx
      rw [← hx]; exact hc) hl
  obtain ⟨r1, r2, r3, r4, r5, r6⟩ := g2
  have hstep3 : st3.step = Step.stepMant ∨ st3.step = Step.stepExp := by
    rcases r6 with r | ⟨r, -⟩
    · rw [r]; exact hstep
    · rcases hstep with x | x <;> rw [r] at x <;> cases x
  rw [r1] at hp
  refine Parse_of_loop (by simp) hr hr2 st3 (by rw [hinit]; exact g1) ?_ hstep3
  rw [r3, r4, r5]
  exact padLoop_sim hr2 hσ _ r2 hp

theorem isDigitOf_not_special {radix c : Nat} (h : IsDigitOf radix c) :
    c ≠ 43 ∧ c ≠ 45 ∧ c ≠ 46 := by
  unfold IsDigitOf at h
  omega

theorem Format_text {num : Int} {frac radix : Nat} (hnum : IsInt64 num) (hf : frac ≤ 64)
    (hr : 2 ≤ radix) (hr2 : radix ≤ 36) :
    Format num frac radix = some (formatText num frac radix, none) := by
  unfold Format
  rw [Append_text [] hnum hf hr hr2]
  simp

theorem decodeRune_ascii {b : Nat} (hb : b < 128) (rest : List Nat) :
    decodeRune (b :: rest) = (b, 1) := by
  unfold decodeRune
  simp only
  rw [if_pos hb]

theorem runeAtLoop_ascii_prefix (pre rest : List Nat) (fuel ind : Nat)
    (hpre : ∀ b ∈ pre, b < 128) (hrest : rest ≠ []) (hfuel : pre.length + rest.length ≤ fuel) :
    runeAtLoop (ind + pre.length) fuel (pre ++ rest) ind = some (decodeRune rest).1 := by
  induction pre generalizing fuel ind with
  | nil =>
    cases rest with
    | nil => exact absurd rfl hrest
    | cons b t =>
      cases fuel with
      | zero => simp at hfuel
      | succ f => simp [runeAtLoop]
  | cons a pre ih =>
    cases fuel with
    | zero => simp at hfuel
    | succ f =>
      have ha : a < 128 := hpre a (List.mem_cons_self _ _)
      have hne : ind ≠ ind + (pre.length + 1) := by omega
      rw [List.cons_append, runeAtLoop, decodeRune_ascii ha]
      simp only [List.length_cons, hne, if_false, List.drop_succ_cons, List.drop_zero]
      have := ih f (ind + 1) (fun b hb => hpre b (List.mem_cons_of_mem _ hb))
        (by simp only [List.length_cons] at hfuel; omega)
      rw [show ind + 1 + pre.length = ind + (pre.length + 1) by omega] at this
      exact this

theorem runeAt_of_ascii_prefix {src : List Nat} {i : Nat} (hi : i < src.length)
    (hpre : ∀ b ∈ src.take i, b < 128) :
    runeAt src i = some (decodeRune (src.drop i)).1 := by
  have hlen : (src.take i).length = i := by simp; omega
  have hdrop : src.drop i ≠ [] := by simp; omega
  have h := runeAtLoop_ascii_prefix (src.take i) (src.drop i) src.length 0 hpre hdrop
    (by rw [← List.length_append, List.take_append_drop])
  rw [List.take_append_drop, hlen, Nat.zero_add] at h
  exact h

theorem ascii_of_toDigit {c : Nat} (h : toDigit c ≠ unDigit) : c < 128 := by
  unfold unDigit at h
  rcases toDigit_cases c with ⟨-, h2, -⟩ | ⟨-, h2, -⟩ | ⟨-, h2, -⟩ | h3
  · omega
  · omega
  · omega
  · exact absurd h3 h

theorem parseChar_ok_ascii {frac radix ind c : Nat} {st st1 : ParseState}
    (h : parseChar frac radix ind c st = .ok st1) : c < 128 := by
  rw [parseChar_eq] at h
  split_ifs at h with h1 h2 h3
  · omega
  · omega
  · omega
  · apply ascii_of_toDigit
    intro hu
    unfold digitStep at h
    rw [if_pos (Or.inl hu)] at h
    cases h

theorem digitStep_invalid {frac radix ind digit : Nat} {step : Step} {st : ParseState} {n : Int}
    {i : Nat} (h : digitStep frac radix ind digit step st = .error (n, ParseError.invalidCharacter i)) :
    i = ind ∧ (digit = unDigit ∨ digit ≥ radix) := by
  unfold digitStep at h
  by_cases hv : digit = unDigit ∨ digit ≥ radix
  · rw [if_pos hv] at h
    simp only [Except.error.injEq, Prod.mk.injEq, ParseError.invalidCharacter.injEq] at h
    exact ⟨h.2.symm, hv⟩
  · rw [if_neg hv] at h
    exfalso
    rcases hinc : inc st.num radix st.sign digit with ⟨n1, _ | e1⟩
    · simp only [hinc] at h
      split_ifs at h
      all_goals cases h
    · obtain ⟨-, he⟩ := inc_error_zero hinc
      simp only [hinc] at h
      split_ifs at h
      all_goals cases h
      all_goals rcases he with he | he <;> cases he

theorem parseChar_invalid {frac radix ind c : Nat} {st : ParseState} {n : Int} {i : Nat}
    (h : parseChar frac radix ind c st = .error (n, ParseError.invalidCharacter i)) :
    i = ind ∧ (toDigit c = unDigit ∨ toDigit c ≥ radix) := by
  rw [parseChar_eq] at h
  split_ifs at h
  exact digitStep_invalid h

theorem parseLoop_invalid {frac radix : Nat} {cs : List Nat} {ind : Nat} {st : ParseState}
    {n : Int} {i : Nat}
    (h : parseLoop frac radix cs ind st = .error (n, ParseError.invalidCharacter i)) :
    ∃ a c rest, cs = a ++ c :: rest ∧ i = ind + a.length ∧ (∀ b ∈ a, b < 128) ∧
      (toDigit c = unDigit ∨ toDigit c ≥ radix) := by
  induction cs generalizing ind st with
  | nil => simp [parseLoop] at h
  | cons c cs ih =>
    rw [parseLoop] at h
    cases hc : parseChar frac radix ind c st with
    | error e =>
      rw [hc] at h
      simp only [Except.error.injEq] at h
      subst h
      obtain ⟨e1, e2⟩ := parseChar_invalid hc
      exact ⟨[], c, cs, rfl, by simpa using e1, by simp, e2⟩
    | ok st1 =>
      rw [hc] at h
      obtain ⟨a, c1, rest, e1, e2, e3, e4⟩ := ih h
      refine ⟨c :: a, c1, rest, by rw [e1]; rfl, by rw [e2, List.length_cons]; omega, ?_, e4⟩
      intro b hb
      rcases List.mem_cons.mp hb with hb | hb
      · rw [hb]; exact parseChar_ok_ascii hc
      · exact e3 b hb

theorem padLoop_error_kind {radix : Nat} {sign : Int} {k : Nat} {num n : Int} {e : ParseError}
    (h : padLoop radix sign k num = .error (n, e)) :
    e = ParseError.overflow ∨ e = ParseError.underflow := by
  induction k generalizing num with
  | zero => simp [padLoop] at h
  | succ k ih =>
    rw [padLoop] at h
    rcases hinc : inc num radix sign 0 with ⟨n1, _ | e1⟩
    · rw [hinc] at h
      exact ih h
    · obtain ⟨-, he⟩ := inc_error_zero hinc
      rw [hinc] at h
      simp only [Except.error.injEq, Prod.mk.injEq] at h
      rw [← h.2]; exact he

theorem Parse_invalid_inv {src : List Nat} {frac radix i : Nat}
    (h : (Parse src frac radix).2 = some (ParseError.invalidCharacter i)) :
    ∃ n, parseLoop frac radix src 0 ⟨Step.stepSign, 1, 0, 0⟩ =
      .error (n, ParseError.invalidCharacter i) := by
  have hsrc : src ≠ [] := by
    rintro rfl
    rw [Parse_empty] at h
    cases h
  have hr : ¬ (radix < 2 ∨ radix > 36) := by
    intro hr
    rw [Parse_bad_radix hsrc frac hr] at h
    cases h
  rw [Parse_valid hsrc frac (by omega) (by omega)] at h
  unfold parseBody at h
  cases hl : parseLoop frac radix src 0 ⟨Step.stepSign, 1, 0, 0⟩ with
  | error e1 =>
    obtain ⟨n, e1⟩ := e1
    rw [hl] at h
    simp only [Option.some.injEq] at h
    exact ⟨n, by rw [h]⟩
  | ok st =>
    simp only [hl] at h
    cases hp : padLoop radix st.sign (frac - st.expDigs) st.num with
    | error e1 =>
      obtain ⟨n, e1⟩ := e1
      rw [hp] at h
      simp only [Option.some.injEq] at h
      rcases padLoop_error_kind hp with he | he <;> rw [he] at h <;> cases h
    | ok v =>
      simp only [hp] at h
      split_ifs at h
      all_goals cases h

theorem parse_invalid_prefix {src : List Nat} {frac radix i : Nat}
    (h : (Parse src frac radix).2 = some (ParseError.invalidCharacter i)) :
    i < src.length ∧ (∀ b ∈ src.take i, b < 128) ∧
      ∃ c rest, src.drop i = c :: rest ∧ (toDigit c = unDigit ∨ toDigit c ≥ radix) := by
  obtain ⟨n, hl⟩ := Parse_invalid_inv h
  obtain ⟨a, c, rest, e1, e2, e3, e4⟩ := parseLoop_invalid hl
  rw [Nat.zero_add] at e2
  subst e1 e2
  refine ⟨by simp, by simpa using e3, c, rest, by simp, e4⟩

/-! ## Claims -/

/-- C1 (round trip): for every int64 value `v`, every `frac` with `frac ≤ 64` and
every radix between 2 and 36, `Format v frac radix` succeeds with some text `s`,
and `Parse s frac radix` returns exactly `v` with no error. -/
theorem C1_roundtrip (v : Int) (frac radix : Nat) (hv : IsInt64 v) (hf : frac ≤ 64)
    (hr : 2 ≤ radix) (hr2 : radix ≤ 36) :
    ∃ s, Format v frac radix = some (s, none) ∧ Parse s frac radix = (v, none) := by
  refine ⟨formatText v frac radix, ?_, format_parse hv hr hr2⟩
  unfold Format
  rw [Append_text [] hv hf hr hr2]
  simp

/-- Witness of C1 at the smallest int64 with the largest precision, radix 10. -/
theorem C1_roundtrip_witness :
    IsInt64 minInt64 ∧ (64 : Nat) ≤ 64 ∧ 2 ≤ 10 ∧ 10 ≤ 36 ∧
      ∃ s, Format minInt64 64 10 = some (s, none) ∧ Parse s 64 10 = (minInt64, none) :=
  ⟨by decide, by decide, by decide, by decide,
    C1_roundtrip minInt64 64 10 (by decide) (by decide) (by decide) (by decide)⟩

/-- C2 (exact parse): for a radix between 2 and 36, any `frac`, and an input made
of an optional sign, at least one mantissa digit and, optionally, a point followed
by at least one fractional digit, all digits being below the radix and every
fractional digit beyond position `frac` being zero: when the exact scaled value
fits an int64, `Parse` returns it with no error. -/
theorem C2_parse_exact (radix frac : Nat) (sg m f : List Nat) (hr : 2 ≤ radix)
    (hr2 : radix ≤ 36) (hsg : sg = [] ∨ sg = [43] ∨ sg = [45]) (hm : m ≠ [])
    (hmd : ∀ c ∈ m, toDigit c < radix) (hfd : ∀ c ∈ f, toDigit c < radix)
    (hz : ∀ c ∈ f.drop frac, toDigit c = 0)
    (hV : IsInt64 (scaledValue radix frac sg m f)) :
    Parse (fracInput sg m f) frac radix = (scaledValue radix frac sg m f, none) :=
  parse_wellformed frac sg m f hr hr2 hsg hm hmd hfd hz hV

/-- Witness of C2: the text "-123.4500" with two fractional digits in radix 10
has scaled value -12345, which `Parse` returns. -/
theorem C2_parse_exact_witness :
    fracInput [45] (bytes "123") (bytes "4500") = bytes "-123.4500" ∧
      scaledValue 10 2 [45] (bytes "123") (bytes "4500") = -12345 ∧
      Parse (fracInput [45] (bytes "123") (bytes "4500")) 2 10 =
        (scaledValue 10 2 [45] (bytes "123") (bytes "4500"), none) := by
  have hval : scaledValue 10 2 [45] (bytes "123") (bytes "4500") = -12345 := by
    rw [scaledValue, digitsValue_eq_accum]
    decide
  refine ⟨by decide, hval, ?_⟩
  exact C2_parse_exact 10 2 [45] (bytes "123") (bytes "4500") (by decide) (by decide)
    (by decide) (by decide) (by decide) (by decide) (by decide) (by rw [hval]; decide)

/-- C3 (overflow detection), evaluated at a failing input: the text
"25000000000000000000" has the scaled value 25000000000000000000, above the
largest int64, yet `Parse` returns the wrapped-around number 6553255926290448384
with no error. -/
theorem C3_overflow_undetected :
    scaledValue 10 0 [] (bytes "25000000000000000000") [] = 25000000000000000000 ∧
      maxInt64 < 25000000000000000000 ∧
      Parse (fracInput [] (bytes "25000000000000000000") []) 0 10 =
        (6553255926290448384, none) := by
  refine ⟨?_, by decide, by decide⟩
  rw [scaledValue, digitsValue_eq_accum]
  decide

/-- C4 (reference definition of Format): for every int64 `num`, `frac ≤ 64` and
radix between 2 and 36, `Format` returns the text of the reference definition
`FormatSpec`: a minus sign iff `num < 0`, the integer part of the magnitude
without leading zeros, and, iff the fractional part is not zero, a point followed
by the fractional part on `frac` digits with its trailing zeros removed. -/
theorem C4_format_reference (num : Int) (frac radix : Nat) (hnum : IsInt64 num)
    (hf : frac ≤ 64) (hr : 2 ≤ radix) (hr2 : radix ≤ 36) :
    Format num frac radix = some (FormatSpec num frac radix, none) := by
  unfold Format
  rw [Append_text [] hnum hf hr hr2, formatText_eq_spec num frac hr]
  simp

/-- Witness of C4 on the examples of the claim: "-123.45", "123" and "0.001". -/
theorem C4_format_reference_witness :
    (Format (-12345) 2 10 = some (FormatSpec (-12345) 2 10, none) ∧
        Format (-12345) 2 10 = some (bytes "-123.45", none)) ∧
      (Format 12300 2 10 = some (FormatSpec 12300 2 10, none) ∧
        Format 12300 2 10 = some (bytes "123", none)) ∧
      (Format 1 3 10 = some (FormatSpec 1 3 10, none) ∧
        Format 1 3 10 = some (bytes "0.001", none)) ∧
      Format minInt64 0 10 = some (FormatSpec minInt64 0 10, none) :=
  ⟨⟨C4_format_reference (-12345) 2 10 (by decide) (by decide) (by decide) (by decide),
      by decide⟩,
    ⟨C4_format_reference 12300 2 10 (by decide) (by decide) (by decide) (by decide),
      by decide⟩,
    ⟨C4_format_reference 1 3 10 (by decide) (by decide) (by decide) (by decide), by decide⟩,
    C4_format_reference minInt64 0 10 (by decide) (by decide) (by decide) (by decide)⟩

/-- C5 (excess precision is rejected): for a radix between 2 and 36 and any
`frac`, an input whose first point is followed by at least `frac` characters and
then by a character that is not the digit zero makes `Parse` return the number 0
with an error; the error is PrecisionExceeded when the scan of the earlier
characters raised no error and the character is a digit below the radix. -/
theorem C5_excess_precision (radix frac : Nat) (a f rest : List Nat) (c : Nat) (hr : 2 ≤ radix)
    (hr2 : radix ≤ 36) (ha : 46 ∉ a) (hf : frac ≤ f.length) (hc : toDigit c ≠ 0) :
    (Parse (a ++ 46 :: f ++ c :: rest) frac radix).1 = 0 ∧
      (Parse (a ++ 46 :: f ++ c :: rest) frac radix).2 ≠ none ∧
      ((∃ st, parseLoop frac radix (a ++ 46 :: f) 0 ⟨Step.stepSign, 1, 0, 0⟩ = .ok st) →
        toDigit c < radix →
        Parse (a ++ 46 :: f ++ c :: rest) frac radix = (0, some ParseError.precisionExceeded)) := by
  obtain ⟨e, h1, h2⟩ := parse_excess hr hr2 a f rest c ha hf hc
  refine ⟨by rw [h1], by rw [h1]; simp, fun hst hlt => ?_⟩
  rw [h1, h2 hst hlt]

/-- Witness of C5 on "123.456" with two fractional digits, and the examples of
the claim: "123.456" and "01230.04560" with 0 to 3 fractional digits fail with
PrecisionExceeded and the number 0. -/
theorem C5_excess_precision_witness :
    (Parse (bytes "123" ++ 46 :: bytes "45" ++ 54 :: []) 2 10).1 = 0 ∧
      (Parse (bytes "123" ++ 46 :: bytes "45" ++ 54 :: []) 2 10).2 ≠ none ∧
      Parse (bytes "123.456") 2 10 = (0, some ParseError.precisionExceeded) ∧
      (∀ k, k < 4 → Parse (bytes "01230.04560") k 10 = (0, some ParseError.precisionExceeded)) :=
  have h := C5_excess_precision 10 2 (bytes "123") (bytes "45") [] 54 (by decide) (by decide)
    (by decide) (by decide) (by decide)
  ⟨h.1, h.2.1, h.2.2 ⟨⟨Step.stepExp, 1, 2, 12345⟩, by rfl⟩ (by decide), by decide⟩

/-- C6, as stated, fails: `Parse` of "123.4500" with two fractional digits in
radix 10 does not report PrecisionExceeded. -/
theorem C6_counterexample :
    ¬ ((Parse (bytes "123.4500") 2 10).2 = some ParseError.precisionExceeded) := by
  decide

/-- C6, amended: `Parse` of "123.4500" with two fractional digits in radix 10
succeeds with 12345, the two zeros beyond the precision being ignored. -/
theorem C6_trailing_zeros_accepted : Parse (bytes "123.4500") 2 10 = (12345, none) := by
  decide

/-- C7 (trailing fractional zeros): for every `frac`, every radix and every input
`s` that contains a point, if `Parse s` succeeds with `v` then `Parse` of `s`
followed by the character "0" succeeds with the same `v`. -/
theorem C7_trailing_zero (frac radix : Nat) (s : List Nat) (v : Int) (hpt : 46 ∈ s)
    (h : Parse s frac radix = (v, none)) : Parse (s ++ [48]) frac radix = (v, none) :=
  parse_append_zero hpt h

/-- Witness of C7 on "123.00" (within the budget) and on the largest int64
followed by ".00" (beyond the budget), and the examples of the claim. -/
theorem C7_trailing_zero_witness :
    Parse (bytes "123.00" ++ [48]) 2 10 = (12300, none) ∧
      Parse (bytes "9223372036854775807.00" ++ [48]) 0 10 = (maxInt64, none) ∧
      Parse (bytes "123.0000") 2 10 = (12300, none) ∧
      Parse (bytes "9223372036854775807.000000000000000") 0 10 = (maxInt64, none) :=
  ⟨C7_trailing_zero 2 10 (bytes "123.00") 12300 (by decide) (by decide),
    C7_trailing_zero 0 10 (bytes "9223372036854775807.00") maxInt64 (by decide) (by decide),
    by decide, by decide⟩

/-- C8 (Append is atomic on the buffer): for every buffer, int64 `num`, `frac`
and radix, `Append` returns normally; if it fails the returned slice is exactly
the buffer, and if it succeeds the returned slice is the buffer followed by the
text of `Format num frac radix`. -/
theorem C8_append_atomic (buf : List Nat) (num : Int) (frac radix : Nat) (hnum : IsInt64 num) :
    ∃ out err, Append buf num frac radix = some (out, err) ∧
      (err ≠ none → out = buf) ∧
      (err = none → ∃ s, Format num frac radix = some (s, none) ∧ out = buf ++ s) := by
  by_cases hr : radix < 2 ∨ radix > 36
  · refine ⟨buf, some FormatError.unsupportedRadix, Append_bad_radix buf num frac hr,
      fun _ => rfl, fun h => by cases h⟩
  by_cases hf : frac > 64
  · refine ⟨buf, some FormatError.precisionLimitExceeded,
      Append_bad_frac buf num (by omega) (by omega) hf, fun _ => rfl, fun h => by cases h⟩
  · refine ⟨buf ++ formatText num frac radix, none,
      Append_text buf hnum (by omega) (by omega) (by omega), fun h => absurd rfl h, fun _ => ?_⟩
    refine ⟨formatText num frac radix, ?_, rfl⟩
    unfold Format
    rw [Append_text [] hnum (by omega) (by omega) (by omega)]
    simp

/-- Witness of C8 on a success and on a failure with a non-empty buffer. -/
theorem C8_append_atomic_witness :
    (∃ out err, Append (bytes "x=") (-12345) 2 10 = some (out, err) ∧
      (err ≠ none → out = bytes "x=") ∧
      (err = none → ∃ s, Format (-12345) 2 10 = some (s, none) ∧ out = bytes "x=" ++ s)) ∧
    Append (bytes "x=") (-12345) 2 10 = some (bytes "x=-123.45", none) ∧
    Append (bytes "x=") (-12345) 65 10 =
      some (bytes "x=", some FormatError.precisionLimitExceeded) :=
  ⟨C8_append_atomic (bytes "x=") (-12345) 2 10 (by decide), by decide, by decide⟩

/-- C9 (Format and Append fail exactly on invalid parameters): for every int64
`num`, `Append` returns an error iff the radix is below 2 or above 36 or `frac`
is above 64; the error is UnsupportedRadix whenever the radix is out of range and
PrecisionLimitExceeded otherwise; with `frac = 64` and a valid radix `Format`
succeeds. -/
theorem C9_format_errors (buf : List Nat) (num : Int) (frac radix : Nat) (hnum : IsInt64 num) :
    ∃ out err, Append buf num frac radix = some (out, err) ∧
      (err ≠ none ↔ (radix < 2 ∨ radix > 36 ∨ frac > 64)) ∧
      ((radix < 2 ∨ radix > 36) → err = some FormatError.unsupportedRadix) ∧
      (2 ≤ radix → radix ≤ 36 → frac > 64 → err = some FormatError.precisionLimitExceeded) ∧
      (2 ≤ radix → radix ≤ 36 → ∃ s, Format num 64 radix = some (s, none)) := by
  have h64 : 2 ≤ radix → radix ≤ 36 → ∃ s, Format num 64 radix = some (s, none) := by
    intro h1 h2
    refine ⟨formatText num 64 radix, ?_⟩
    unfold Format
    rw [Append_text [] hnum (le_refl 64) h1 h2]
    simp
  by_cases hr : radix < 2 ∨ radix > 36
  · refine ⟨buf, some FormatError.unsupportedRadix, Append_bad_radix buf num frac hr, ?_,
      fun _ => rfl, fun h1 h2 _ => by omega, h64⟩
    constructor
    · intro _; omega
    · intro _; simp
  by_cases hf : frac > 64
  · refine ⟨buf, some FormatError.precisionLimitExceeded,
      Append_bad_frac buf num (by omega) (by omega) hf, ?_, fun h => absurd h hr,
      fun _ _ _ => rfl, h64⟩
    constructor
    · intro _; omega
    · intro _; simp
  · refine ⟨buf ++ formatText num frac radix, none,
      Append_text buf hnum (by omega) (by omega) (by omega), ?_, fun h => absurd h hr,
      fun _ _ h => absurd h hf, h64⟩
    constructor
    · intro h; exact absurd rfl h
    · intro h; omega

/-- Witness of C9, with the examples of the claim: `Format 1 65 10` and
`Format (-1) 65 10` fail with PrecisionLimitExceeded, and an invalid radix takes
precedence over an invalid precision. -/
theorem C9_format_errors_witness :
    (∃ out err, Append [] 1 65 10 = some (out, err) ∧
      (err ≠ none ↔ (10 < 2 ∨ 10 > 36 ∨ 65 > 64)) ∧
      ((10 < 2 ∨ 10 > 36) → err = some FormatError.unsupportedRadix) ∧
      (2 ≤ 10 → 10 ≤ 36 → 65 > 64 → err = some FormatError.precisionLimitExceeded) ∧
      (2 ≤ 10 → 10 ≤ 36 → ∃ s, Format 1 64 10 = some (s, none))) ∧
    Format 1 65 10 = some ([], some FormatError.precisionLimitExceeded) ∧
    Format (-1) 65 10 = some ([], some FormatError.precisionLimitExceeded) ∧
    Format 1 65 37 = some ([], some FormatError.unsupportedRadix) :=
  ⟨C9_format_errors [] 1 65 10 (by decide), by decide, by decide, by decide⟩

/-- C10 (radix bounds of Parse): for every non-empty input and every `frac`,
`Parse` fails with UnsupportedRadix iff the radix is below 2 or above 36; and for
every radix between 2 and 36, `Parse` of "0" is 0 and `Parse` of "1" is 1, with no
error. -/
theorem C10_parse_radix (src : List Nat) (frac radix : Nat) (hsrc : src ≠ []) :
    ((Parse src frac radix).2 = some ParseError.unsupportedRadix ↔ (radix < 2 ∨ radix > 36)) ∧
      (2 ≤ radix → radix ≤ 36 →
        Parse (bytes "0") 0 radix = (0, none) ∧ Parse (bytes "1") 0 radix = (1, none)) := by
  refine ⟨Parse_unsupportedRadix_iff hsrc frac radix, fun h1 h2 => ?_⟩
  interval_cases radix <;> exact ⟨by decide, by decide⟩

/-- Witness of C10 on the input "0" with the radixes 1, 37 and 36. -/
theorem C10_parse_radix_witness :
    Parse (bytes "0") 0 1 = (0, some ParseError.unsupportedRadix) ∧
      Parse (bytes "0") 0 37 = (0, some ParseError.unsupportedRadix) ∧
      ((Parse (bytes "0") 0 36).2 = some ParseError.unsupportedRadix ↔ (36 < 2 ∨ 36 > 36)) ∧
      Parse (bytes "1") 0 36 = (1, none) :=
  ⟨by decide, by decide, (C10_parse_radix (bytes "0") 0 36 (by decide)).1,
    ((C10_parse_radix (bytes "0") 0 36 (by decide)).2 (by decide) (by decide)).2⟩

/-- C11, as stated, fails: the largest int64 followed by a point, with one
fractional digit in radix 10, is a run of valid digits and a final point, yet
`Parse` does not report UnexpectedEndOfInput (it reports Overflow, raised by
the zero padding that precedes the check of the final state). -/
theorem C11_counterexample :
    (∀ c ∈ bytes "9223372036854775807", toDigit c < 10) ∧
      Parse ([] ++ bytes "9223372036854775807" ++ [46]) 1 10 =
        (0, some ParseError.overflow) ∧
      (Parse ([] ++ bytes "9223372036854775807" ++ [46]) 1 10).2 ≠
        some ParseError.unexpectedEnd := by
  decide

/-- C11, amended: for a radix between 2 and 36 and any `frac`, an input that
consists only of a sign fails with UnexpectedEndOfInput; an input made of an
optional sign, one or more valid digits and a final point fails with
UnexpectedEndOfInput provided the signed value of the digits scaled by
`radix ^ frac` fits an int64; and every input that ends with a point fails. -/
theorem C11_unexpected_end (radix frac : Nat) (hr : 2 ≤ radix) (hr2 : radix ≤ 36) :
    Parse [43] frac radix = (0, some ParseError.unexpectedEnd) ∧
      Parse [45] frac radix = (0, some ParseError.unexpectedEnd) ∧
      (∀ sg m : List Nat, IsSignPrefix sg → m ≠ [] → (∀ c ∈ m, toDigit c < radix) →
        IsInt64 (scaledValue radix frac sg m []) →
        Parse (sg ++ m ++ [46]) frac radix = (0, some ParseError.unexpectedEnd)) ∧
      (∀ pre : List Nat, (Parse (pre ++ [46]) frac radix).2 ≠ none ∧
        (Parse (pre ++ [46]) frac radix).1 = 0) :=
  ⟨(parse_sign_only frac hr hr2).1, (parse_sign_only frac hr hr2).2,
    fun sg m hsg hm hmd hV => parse_trailing_point frac sg m hr hr2 hsg hm hmd hV,
    fun pre => ⟨parse_ends_with_point_fails pre frac radix,
      Parse_error_zero _ frac radix (parse_ends_with_point_fails pre frac radix)⟩⟩

/-- Witness of C11 (amended) in radix 10 with two fractional digits, on "12."
and "-12.". -/
theorem C11_unexpected_end_witness :
    Parse (bytes "+") 2 10 = (0, some ParseError.unexpectedEnd) ∧
      Parse (bytes "12.") 2 10 = (0, some ParseError.unexpectedEnd) ∧
      Parse (bytes "-12.") 2 10 = (0, some ParseError.unexpectedEnd) :=
  have h := C11_unexpected_end 10 2 (by decide) (by decide)
  ⟨h.1,
    h.2.2.1 [] (bytes "12") (Or.inl rfl) (by decide) (by decide)
      (by rw [scaledValue, digitsValue_eq_accum]; decide),
    h.2.2.1 [45] (bytes "12") (Or.inr (Or.inr rfl)) (by decide) (by decide)
      (by rw [scaledValue, digitsValue_eq_accum]; decide)⟩

/-- C12 (the character after the optional sign must be a digit): for a radix
between 2 and 36 and any `frac`, if the first character after at most one
leading sign is not a digit of the radix, `Parse` fails with InvalidCharacter at
that character, whatever follows. -/
theorem C12_first_char (radix frac : Nat) (sg : List Nat) (c : Nat) (rest : List Nat)
    (hr : 2 ≤ radix) (hr2 : radix ≤ 36) (hsg : IsSignPrefix sg)
    (hc0 : sg = [] → c ≠ 43 ∧ c ≠ 45) (hc : ¬ IsDigitOf radix c) :
    Parse (sg ++ c :: rest) frac radix = (0, some (ParseError.invalidCharacter sg.length)) :=
  parse_bad_first frac sg c rest hr hr2 hsg hc0 (fun h => hc (isDigitOf_of_toDigit hr2 h))

/-- Witness of C12 on "--5", and the examples of the claim. -/
theorem C12_first_char_witness :
    Parse ([45] ++ 45 :: bytes "5") 0 10 = (0, some (ParseError.invalidCharacter 1)) ∧
      Parse (bytes "+-5") 0 10 = (0, some (ParseError.invalidCharacter 1)) ∧
      Parse (bytes "++12") 0 10 = (0, some (ParseError.invalidCharacter 1)) ∧
      Parse (bytes "-+12") 0 10 = (0, some (ParseError.invalidCharacter 1)) ∧
      Parse (bytes ".12") 0 10 = (0, some (ParseError.invalidCharacter 0)) ∧
      Parse (bytes "+.12") 0 10 = (0, some (ParseError.invalidCharacter 1)) ∧
      Parse (bytes "-.12") 0 10 = (0, some (ParseError.invalidCharacter 1)) ∧
      Parse (bytes " 12") 0 10 = (0, some (ParseError.invalidCharacter 0)) :=
  ⟨C12_first_char 10 0 [45] 45 (bytes "5") (by decide) (by decide) (Or.inr (Or.inr rfl))
      (by decide) (by unfold IsDigitOf; omega),
    by decide, by decide, by decide, by decide, by decide, by decide, by decide⟩

/-- C13 (Parse accepts only the documented grammar): if `Parse` succeeds, the
input is made of at most one leading sign, one or more digits of the radix and,
optionally, a single point followed by one or more digits of the radix; hence
every byte is a sign, a point or a digit of the radix, no sign occurs after
position 0 and there is at most one point. -/
theorem C13_grammar (src : List Nat) (frac radix : Nat) (v : Int)
    (h : Parse src frac radix = (v, none)) :
    (∃ sg m f, src = fracInput sg m f ∧ IsSignPrefix sg ∧ m ≠ [] ∧
        (∀ c ∈ m, IsDigitOf radix c) ∧ (∀ c ∈ f, IsDigitOf radix c)) ∧
      (∀ c ∈ src, c = 43 ∨ c = 45 ∨ c = 46 ∨ IsDigitOf radix c) ∧
      (∀ c ∈ src.drop 1, c ≠ 43 ∧ c ≠ 45) ∧
      src.count 46 ≤ 1 := by
  obtain ⟨sg, m, f, e, p1, p2, p3, p4⟩ := parse_grammar h
  refine ⟨⟨sg, m, f, e, p1, p2, p3, p4⟩, ?_, ?_, ?_⟩
  · intro c hc
    rw [e] at hc
    unfold fracInput at hc
    rcases List.mem_append.mp hc with hc | hc
    · rcases List.mem_append.mp hc with hc | hc
      · rcases p1 with rfl | rfl | rfl
        · simp at hc
        · left; simpa using hc
        · right; left; simpa using hc
      · exact Or.inr (Or.inr (Or.inr (p3 c hc)))
    · by_cases hf : f = []
      · rw [if_pos hf] at hc; simp at hc
      · rw [if_neg hf] at hc
        rcases List.mem_cons.mp hc with hc | hc
        · exact Or.inr (Or.inr (Or.inl hc))
        · exact Or.inr (Or.inr (Or.inr (p4 c hc)))
  · have htail : ∀ c ∈ m ++ (if f = [] then [] else 46 :: f), c ≠ 43 ∧ c ≠ 45 := by
      intro c hc
      rcases List.mem_append.mp hc with hc | hc
      · exact ⟨(isDigitOf_not_special (p3 c hc)).1, (isDigitOf_not_special (p3 c hc)).2.1⟩
      · by_cases hf : f = []
        · rw [if_pos hf] at hc; simp at hc
        · rw [if_neg hf] at hc
          rcases List.mem_cons.mp hc with hc | hc
          · subst hc; decide
          · exact ⟨(isDigitOf_not_special (p4 c hc)).1, (isDigitOf_not_special (p4 c hc)).2.1⟩
    intro c hc
    rw [e] at hc
    unfold fracInput at hc
    rw [List.append_assoc] at hc
    rcases p1 with rfl | rfl | rfl
    · exact htail c (List.mem_of_mem_drop hc)
    · exact htail c (by simpa using hc)
    · exact htail c (by simpa using hc)
  · have hm0 : m.count 46 = 0 :=
      List.count_eq_zero.mpr (fun hmem => (isDigitOf_not_special (p3 46 hmem)).2.2 rfl)
    have hf0 : f.count 46 = 0 :=
      List.count_eq_zero.mpr (fun hmem => (isDigitOf_not_special (p4 46 hmem)).2.2 rfl)
    have hs0 : sg.count 46 = 0 := by
      rcases p1 with rfl | rfl | rfl <;> decide
    rw [e]
    unfold fracInput
    rw [List.count_append, List.count_append, hm0, hs0]
    by_cases hf : f = []
    · rw [if_pos hf]; simp
    · rw [if_neg hf, List.count_cons_self, hf0]

/-- Witness of C13 on "-01230.04560", and the rejections named by the claim. -/
theorem C13_grammar_witness :
    (∃ sg m f, bytes "-01230.04560" = fracInput sg m f ∧ IsSignPrefix sg ∧ m ≠ [] ∧
        (∀ c ∈ m, IsDigitOf 10 c) ∧ (∀ c ∈ f, IsDigitOf 10 c)) ∧
      (Parse (bytes "2") 0 2).2 ≠ none ∧ (Parse (bytes "g") 0 16).2 ≠ none ∧
      (Parse (bytes "1-2") 0 10).2 ≠ none ∧ (Parse (bytes "1.2.3") 4 10).2 ≠ none ∧
      (Parse (bytes "1 ") 0 10).2 ≠ none ∧ (Parse (bytes "1@") 0 36).2 ≠ none ∧
      (Parse (bytes "1[") 0 36).2 ≠ none ∧ (Parse [49, 123] 0 36).2 ≠ none ∧
      (Parse [49, 96] 0 36).2 ≠ none ∧ (Parse [49, 128] 0 36).2 ≠ none :=
  ⟨(C13_grammar (bytes "-01230.04560") 4 10 (-12300456) (by decide)).1,
    by decide, by decide, by decide, by decide, by decide, by decide, by decide, by decide,
    by decide, by decide⟩

/-- C14 (no partial result on a parse error): whenever `Parse` returns an error,
the returned integer is 0. -/
theorem C14_error_zero (src : List Nat) (frac radix : Nat)
    (h : (Parse src frac radix).2 ≠ none) : (Parse src frac radix).1 = 0 :=
  Parse_error_zero src frac radix h

/-- Witness of C14 on "-123.456" with two fractional digits, which fails after
having accumulated -12345. -/
theorem C14_error_zero_witness :
    (Parse (bytes "-123.456") 2 10).2 = some ParseError.precisionExceeded ∧
      (Parse (bytes "-123.456") 2 10).1 = 0 :=
  ⟨by decide, C14_error_zero (bytes "-123.456") 2 10 (by decide)⟩

/-- C15 (Parse is case-insensitive on digits): replacing any ASCII letters of the
input by their other-case form yields an input for which `Parse` returns the same
integer and the same outcome. -/
theorem C15_case_insensitive (src src1 : List Nat) (frac radix : Nat)
    (h : List.Forall₂ CaseVariant src src1) :
    Parse src1 frac radix = Parse src frac radix :=
  parse_caseVariant frac radix h

/-- Witness of C15 on the example of the claim, and on a rejected input. -/
theorem C15_case_insensitive_witness :
    Parse (bytes "0F0F0F.0F0F0") 4 16 = Parse (bytes "0f0f0f.0f0f0") 4 16 ∧
      Parse (bytes "0f0f0f.0f0f0") 4 16 = (0x0f0f0f0f0f, none) ∧
      Parse (bytes "Zz") 0 16 = Parse (bytes "zZ") 0 16 :=
  ⟨C15_case_insensitive (bytes "0f0f0f.0f0f0") (bytes "0F0F0F.0F0F0") 4 16
      (by simp [bytes, CaseVariant, swapCase]),
    by decide,
    C15_case_insensitive (bytes "zZ") (bytes "Zz") 0 16 (by simp [bytes, CaseVariant, swapCase])⟩

/-- C16 (zero fraction collapses to a bare integer): for every int64 `num`,
`frac ≤ 64` and radix between 2 and 36, the text of `Format` contains a point iff
`radix ^ frac` does not divide `num`; the text for `frac = 0` contains no point,
and the text of zero is "0". -/
theorem C16_point_iff (num : Int) (frac radix : Nat) (hnum : IsInt64 num) (hf : frac ≤ 64)
    (hr : 2 ≤ radix) (hr2 : radix ≤ 36) :
    (∃ s, Format num frac radix = some (s, none) ∧
        (46 ∈ s ↔ ¬ ((radix : Int) ^ frac ∣ num))) ∧
      (∃ s, Format num 0 radix = some (s, none) ∧ 46 ∉ s) ∧
      Format 0 frac radix = some (bytes "0", none) := by
  refine ⟨⟨_, Format_text hnum hf hr hr2, ?_⟩, ⟨_, Format_text hnum (Nat.zero_le _) hr hr2, ?_⟩,
    ?_⟩
  · rw [mem_point_formatText num frac hr hr2, natAbs_mod_ne_zero_iff]
  · rw [mem_point_formatText num 0 hr hr2]
    simp [Nat.mod_one]
  · rw [Format_text (by decide) hf hr hr2, formatText_zero frac hr]
    rfl

/-- Witness of C16 on 123000 with three and four fractional digits. -/
theorem C16_point_iff_witness :
    Format 123000 3 10 = some (bytes "123", none) ∧
      Format 123000 4 10 = some (bytes "12.3", none) ∧
      (∃ s, Format 123000 4 10 = some (s, none) ∧
        (46 ∈ s ↔ ¬ (((10 : Nat) : Int) ^ 4 ∣ 123000))) :=
  ⟨by decide, by decide,
    (C16_point_iff 123000 4 10 (by decide) (by decide) (by decide) (by decide)).1⟩

/-- C17 (the scratch buffer is large enough): for every int64 `num`, `frac ≤ 64`
and radix between 2 and 36, `Append` runs without an index panic (the outcome is
not `none`: the index into `local` never drops below zero and every index into
`digits` is below 36) and writes at most 67 bytes; the bound is reached by
`-(2^63 - 1)` with 64 fractional digits in radix 2. -/
theorem C17_scratch_bound (buf : List Nat) (num : Int) (frac radix : Nat) (hnum : IsInt64 num)
    (hf : frac ≤ 64) (hr : 2 ≤ radix) (hr2 : radix ≤ 36) :
    (∃ s, Append buf num frac radix = some (buf ++ s, none) ∧ s.length ≤ localSize) ∧
      (∃ s, Append [] (-(2 ^ 63 - 1)) 64 2 = some (s, none) ∧ s.length = 67) ∧
      localSize = 67 :=
  ⟨⟨_, Append_text buf hnum hf hr hr2, formatText_length_le hnum hf hr⟩,
    ⟨bytes "-0.0111111111111111111111111111111111111111111111111111111111111111",
      by decide, by decide⟩,
    by decide⟩

/-- Witness of C17 on the smallest int64 in radix 2 without fractional digits,
whose text has 65 bytes. -/
theorem C17_scratch_bound_witness :
    ∃ s, Append [] minInt64 0 2 = some ([] ++ s, none) ∧ s.length ≤ localSize :=
  (C17_scratch_bound [] minInt64 0 2 (by decide) (by decide) (by decide) (by decide)).1

/-- C18 (Format output is canonical): for every int64 `num`, `frac ≤ 64` and
radix between 2 and 36, the text is a minus sign iff `num < 0`, then at least one
integer digit with no leading "0" unless the integer part is exactly "0", then,
optionally, a point followed by between 1 and `frac` digits the last of which is
not "0"; every digit is a character of `digits` with a value below the radix. -/
theorem C18_canonical (num : Int) (frac radix : Nat) (hnum : IsInt64 num) (hf : frac ≤ 64)
    (hr : 2 ≤ radix) (hr2 : radix ≤ 36) :
    ∃ m f, Format num frac radix =
        some ((if num < 0 then [45] else []) ++ m ++ (if f = [] then [] else 46 :: f), none) ∧
      m ≠ [] ∧ (m.head? = some 48 → m = [48]) ∧
      f.length ≤ frac ∧ f.getLast? ≠ some 48 ∧
      ∀ c ∈ m ++ f, c ∈ digits ∧ toDigit c < radix := by
  obtain ⟨i1, i2, i3⟩ := intText_canonical num frac hr hr2
  obtain ⟨f1, f2, f3⟩ := fracDigitsText_canonical num frac hr hr2
  refine ⟨intText num frac radix, fracDigitsText num frac radix, ?_, i1, i2, f1, f2, ?_⟩
  · rw [Format_text hnum hf hr hr2, formatText_shape]
    rfl
  · intro c hc
    have hd : ∃ d, d < radix ∧ c = digitChar d := by
      rcases List.mem_append.mp hc with hc | hc
      · exact i3 c hc
      · exact f3 c hc
    obtain ⟨d, hd1, rfl⟩ := hd
    have h36 : d < 36 := by omega
    exact ⟨(digitChar_range h36).2.2, by rw [toDigit_digitChar h36]; exact hd1⟩

/-- Witness of C18 on -12300 with four fractional digits: the text is "-1.23". -/
theorem C18_canonical_witness :
    Format (-12300) 4 10 = some (bytes "-1.23", none) ∧
      ∃ m f, Format (-12300) 4 10 =
          some ((if (-12300 : Int) < 0 then [45] else []) ++ m ++
            (if f = [] then [] else 46 :: f), none) ∧
        m ≠ [] ∧ (m.head? = some 48 → m = [48]) ∧
        f.length ≤ 4 ∧ f.getLast? ≠ some 48 ∧
        ∀ c ∈ m ++ f, c ∈ digits ∧ toDigit c < 10 :=
  ⟨by decide, C18_canonical (-12300) 4 10 (by decide) (by decide) (by decide) (by decide)⟩

/-- C19 (sign symmetry of Parse): for any radix (a successful parse implies that
it is between 2 and 36), any `frac` and an input `s` whose first character is a
digit of the radix, if `Parse s` succeeds with `v` then `Parse` of "+" followed by
`s` succeeds with `v`, and `Parse` of "-" followed by `s` succeeds with `-v`. -/
theorem C19_sign_symmetry (radix frac c : Nat) (rest : List Nat) (v : Int)
    (hc : IsDigitOf radix c) (h : Parse (c :: rest) frac radix = (v, none)) :
    Parse (43 :: c :: rest) frac radix = (v, none) ∧
      Parse (45 :: c :: rest) frac radix = (-v, none) := by
  have hns := isDigitOf_not_special hc
  have h1 := parse_signed (Or.inl rfl) 43 c rest (Or.inl ⟨rfl, rfl⟩) ⟨hns.1, hns.2.1⟩ h
  have h2 := parse_signed (Or.inr rfl) 45 c rest (Or.inr ⟨rfl, rfl⟩) ⟨hns.1, hns.2.1⟩ h
  rw [one_mul] at h1
  rw [neg_one_mul] at h2
  exact ⟨h1, h2⟩

/-- Witness of C19 on "01230.0456", with the remark of the claim on the converse:
the text of the smallest int64 parses, its unsigned form does not. -/
theorem C19_sign_symmetry_witness :
    (Parse (43 :: 48 :: bytes "1230.0456") 4 10 = (12300456, none) ∧
        Parse (45 :: 48 :: bytes "1230.0456") 4 10 = (-12300456, none)) ∧
      Parse (bytes "-9223372036854775808") 0 10 = (minInt64, none) ∧
      Parse (bytes "9223372036854775808") 0 10 = (0, some ParseError.overflow) :=
  ⟨C19_sign_symmetry 10 4 48 (bytes "1230.0456") 12300456 (by unfold IsDigitOf; omega)
      (by decide),
    by decide, by decide⟩

/-- C20 (scaling invariance of Format): for a radix between 2 and 36, `frac < 64`
and an int64 `v` such that `v * radix` is an int64,
`Format (v * radix) (frac + 1) radix = Format v frac radix`. -/
theorem C20_scaling (v : Int) (frac radix : Nat) (hv : IsInt64 v)
    (hvr : IsInt64 (v * (radix : Int))) (hf : frac < 64) (hr : 2 ≤ radix) (hr2 : radix ≤ 36) :
    Format (v * (radix : Int)) (frac + 1) radix = Format v frac radix := by
  rw [Format_text hvr (by omega) hr hr2, Format_text hv (by omega) hr hr2,
    formatText_scale v frac hr]

/-- Witness of C20 on 12300 in radix 10, and the example of the claim. -/
theorem C20_scaling_witness :
    Format (12300 * ((10 : Nat) : Int)) (2 + 1) 10 = Format 12300 2 10 ∧
      Format 123000 3 10 = some (bytes "123", none) ∧
      Format 123 0 10 = some (bytes "123", none) :=
  ⟨C20_scaling 12300 2 10 (by decide) (by decide) (by decide) (by decide) (by decide),
    by decide, by decide⟩

/-- C21 (Parse never panics while reporting a bad character): for every byte
string, `frac` and radix, when `Parse` rejects the byte at index `i` as a
non-digit, that byte exists and fails the digit check, every byte before it is
an ASCII byte (below 0x80), and `runeAt src i` returns the rune that starts at
`i` without reaching its panic. -/
theorem C21_runeAt_safe (src : List Nat) (frac radix i : Nat)
    (h : (Parse src frac radix).2 = some (ParseError.invalidCharacter i)) :
    i < src.length ∧ (∀ b ∈ src.take i, b < 128) ∧
      (∃ c rest, src.drop i = c :: rest ∧ (toDigit c = unDigit ∨ toDigit c ≥ radix)) ∧
      runeAt src i = some (decodeRune (src.drop i)).1 := by
  obtain ⟨h1, h2, h3⟩ := parse_invalid_prefix h
  exact ⟨h1, h2, h3, runeAt_of_ascii_prefix h1 h2⟩

/-- Witness of C21 on a text with a two-byte rune after two digits, where
`runeAt` returns the code point 233, and on a text with an invalid byte, where it
returns the replacement character; `runeAt` does panic at an index inside a
rune, which `Parse` never hands to it. -/
theorem C21_runeAt_safe_witness :
    (Parse [49, 50, 195, 169, 51] 0 10 = (0, some (ParseError.invalidCharacter 2)) ∧
        runeAt [49, 50, 195, 169, 51] 2 = some 233) ∧
      (Parse [45, 255, 49] 0 10 = (0, some (ParseError.invalidCharacter 1)) ∧
        runeAt [45, 255, 49] 1 = some runeError) ∧
      runeAt [49, 50, 195, 169, 51] 3 = none ∧
      (2 < [49, 50, 195, 169, 51].length ∧ (∀ b ∈ [49, 50, 195, 169, 51].take 2, b < 128) ∧
        (∃ c rest, [49, 50, 195, 169, 51].drop 2 = c :: rest ∧
          (toDigit c = unDigit ∨ toDigit c ≥ 10)) ∧
        runeAt [49, 50, 195, 169, 51] 2 = some (decodeRune ([49, 50, 195, 169, 51].drop 2)).1) :=
  ⟨⟨by decide, by decide⟩, ⟨by decide, by decide⟩, by decide,
    C21_runeAt_safe [49, 50, 195, 169, 51] 0 10 2 (by decide)⟩

end Frac
